import Mathlib

/-!
# Verification of the crumbeez keystroke-log core

Shallow embedding of the crumbeez repository's core (crates/crumbeez-lib and
crates/zellij-plugin): the live edit-buffer reconstruction state machine, the
display-side activity ring, the durable watermarked event log with compaction
and persistence framing, the summarizer, and the hand-rolled base64 codec.

Text is modeled as `List Char` (the sequence of Unicode scalars of a Rust
`String`); byte positions are UTF-8 byte offsets, computed from
`Char.utf8Size`.  Machine integers (`usize`, `u64`, `u32`) are modeled as
`Nat`; none of the embedded arithmetic can overflow on the inputs the claims
quantify over, except where an explicit `% 256` mirrors an `as u8` cast.
-/

/-! ## UTF-8 byte arithmetic over `List Char` -/

/-- Total UTF-8 byte length of a scalar sequence (Rust `str::len`). -/
def utf8Len (s : List Char) : Nat := (s.map Char.utf8Size).sum

/-- Rust `str::is_char_boundary`: `p` is `0`, or the byte offset of the start
of a scalar, or the total byte length.  Offsets beyond the end are not
boundaries. -/
def isCharBoundary : List Char → Nat → Bool
  | _, 0 => true
  | [], _ + 1 => false
  | c :: rest, p + 1 =>
    if p + 1 < c.utf8Size then false else isCharBoundary rest (p + 1 - c.utf8Size)

/-- The scalars of `s` that lie entirely within the first `p` bytes
(Rust `&s[..p]` when `p` is a boundary). -/
def byteTake : List Char → Nat → List Char
  | [], _ => []
  | c :: rest, p => if p < c.utf8Size then [] else c :: byteTake rest (p - c.utf8Size)

/-- The scalars of `s` from byte offset `p` on (Rust `&s[p..]` when `p` is a
boundary). -/
def byteDrop : List Char → Nat → List Char
  | [], _ => []
  | c :: rest, p => if p < c.utf8Size then c :: rest else byteDrop rest (p - c.utf8Size)

/-- Rust `String::insert_str(p, t)` at byte offset `p`. -/
def insertAt (s : List Char) (p : Nat) (t : List Char) : List Char :=
  byteTake s p ++ t ++ byteDrop s p

/-- Rust `String::drain(a..b)` for byte offsets `a ≤ b`. -/
def removeRange (s : List Char) (a b : Nat) : List Char :=
  byteTake s a ++ byteDrop s b

/-- Downward scan of `prev_char_boundary`: from `p`, decrement while not at a
scalar boundary (offset 0 always stops the scan). -/
def boundaryDown (s : List Char) : Nat → Nat
  | 0 => 0
  | p + 1 => if isCharBoundary s (p + 1) then p + 1 else boundaryDown s p

/-- `prev_char_boundary` from `crumbeez-lib/src/lib.rs` (the identical copy in
`zellij-plugin/src/main.rs` is shared here): byte offset of the start of the
scalar before `pos`, clamping to 0. -/
def prev_char_boundary (s : List Char) (pos : Nat) : Nat :=
  if pos = 0 then 0 else boundaryDown s (pos - 1)

/-- Upward scan of `next_char_boundary`: from `p`, increment while inside the
string and not at a scalar boundary. -/
def boundaryUp (s : List Char) (p : Nat) : Nat :=
  if h : p < utf8Len s ∧ ¬ isCharBoundary s p then boundaryUp s (p + 1) else p
termination_by utf8Len s - p
decreasing_by simp_wf; omega

/-- `next_char_boundary`: byte offset just after the scalar starting at `pos`,
clamping to `utf8Len s`. -/
def next_char_boundary (s : List Char) (pos : Nat) : Nat :=
  if pos ≥ utf8Len s then utf8Len s else boundaryUp s (pos + 1)

/-- Rust `str::char_indices` starting from byte offset `i`. -/
def charIndicesFrom : Nat → List Char → List (Nat × Char)
  | _, [] => []
  | i, c :: rest => (i, c) :: charIndicesFrom (i + c.utf8Size) rest

/-- Rust `str::char_indices`: each scalar paired with its byte offset. -/
def char_indices (s : List Char) : List (Nat × Char) := charIndicesFrom 0 s

/-- Word character for Ctrl+Left/Right movement: `c.is_alphanumeric() || c == '_'`
in the source.  (`Char.isAlphanum` is the ASCII fragment of Rust's Unicode
`is_alphanumeric`; the choice of predicate does not affect any boundary or
movement property proved below, only which characters count as word
characters.) -/
def isWordChar (c : Char) : Bool := c.isAlphanum || c = '_'

/-- First loop of `word_left`: consume reversed scalars up to and including the
first word character; empty if no word character occurs. -/
def wlSkipToWord : List (Nat × Char) → List (Nat × Char)
  | [] => []
  | (_, c) :: rest => if isWordChar c then rest else wlSkipToWord rest

/-- Second loop of `word_left`: skip word characters (moving leftwards); at the
first non-word character return the boundary just after it; at exhaustion
return 0. -/
def wlFindStart (s : List Char) : List (Nat × Char) → Nat
  | [] => 0
  | (i, c) :: rest =>
    if ¬ isWordChar c then next_char_boundary s i else wlFindStart s rest

/-- `word_left` (Ctrl+Left) from the source: move to the start of the word to
the left of `pos`. -/
def word_left (s : List Char) (pos : Nat) : Nat :=
  let chars_before := char_indices (byteTake s pos)
  if chars_before.isEmpty then 0
  else wlFindStart s (wlSkipToWord chars_before.reverse)

/-- First loop of `word_right`: drop scalars up to and including the first word
character; `none` when no word character occurs (the `found_word = false`
path). -/
def wrSkipToWord : List (Nat × Char) → Option (List (Nat × Char))
  | [] => none
  | (_, c) :: rest => if isWordChar c then some rest else wrSkipToWord rest

/-- Second loop of `word_right`: skip word characters; at the first non-word
character return its byte offset; at exhaustion return the total length. -/
def wrFindEnd (s : List Char) : List (Nat × Char) → Nat
  | [] => utf8Len s
  | (i, c) :: rest => if ¬ isWordChar c then i else wrFindEnd s rest

/-- `word_right` (Ctrl+Right) from the source: move to the end of the word at
or after `pos`. -/
def word_right (s : List Char) (pos : Nat) : Nat :=
  let chars_after := charIndicesFrom pos (byteDrop s pos)
  if chars_after.isEmpty then utf8Len s
  else
    match wrSkipToWord chars_after with
    | none => utf8Len s
    | some rest => wrFindEnd s rest

/-! ## The semantic event alphabet (`crumbeez-lib/src/lib.rs`) -/

/-- Base key of a shortcut chord (`ShortcutKey`; the `Char` variant is renamed
`CharKey` to avoid shadowing the `Char` type). -/
inductive ShortcutKey where
  | CharKey (c : Char)
  | Enter | Tab | Backspace | Delete | Esc | Insert
  | Left | Right | Up | Down | Home | End | PageUp | PageDown
  | F (n : Nat)
deriving DecidableEq

/-- `ShortcutEvent`: a chord involving Ctrl, Alt, or Super. -/
structure ShortcutEvent where
  key : ShortcutKey
  ctrl : Bool
  alt : Bool
  shift : Bool
  super_key : Bool
deriving DecidableEq

/-- `NavDirection`. -/
inductive NavDirection where
  | Left | Right | Up | Down | Home | End | PageUp | PageDown
deriving DecidableEq

/-- `NavigationEvent`: a navigation keystroke with repetition count. -/
structure NavigationEvent where
  direction : NavDirection
  count : Nat
  with_shift : Bool
  with_ctrl : Bool
deriving DecidableEq

/-- `EditControlEvent`. -/
inductive EditControlEvent where
  | Enter
  | Tab
  | Backspace (count : Nat)
  | Delete (count : Nat)
  | Insert
deriving DecidableEq

/-- `SystemKeyEvent`. -/
inductive SystemKeyEvent where
  | CapsLock | ScrollLock | NumLock | PrintScreen | Pause | Menu
deriving DecidableEq

/-- `PaneFocusedEvent`. -/
structure PaneFocusedEvent where
  tab_name : Option (List Char)
  pane_title : List Char
  command : Option (List Char)
  is_plugin : Bool
deriving DecidableEq

/-- The closed semantic event alphabet (`KeystrokeEvent`). -/
inductive KeystrokeEvent where
  | TextTyped (s : List Char)
  | Shortcut (e : ShortcutEvent)
  | Navigation (n : NavigationEvent)
  | EditControl (e : EditControlEvent)
  | Escape
  | FunctionKey (n : Nat)
  | SystemKey (k : SystemKeyEvent)
  | PaneFocused (p : PaneFocusedEvent)
deriving DecidableEq

/-! ## DurableLog (`crumbeez-lib/src/event_log.rs`) -/

/-- `EVENT_LOG_CAPACITY`. -/
def EVENT_LOG_CAPACITY : Nat := 10000

/-- `LogEntry`. -/
structure LogEntry where
  event : KeystrokeEvent
  timestamp_ms : Nat
deriving DecidableEq

/-- `EventLog`: `events` is the `VecDeque` with its front at the list head;
`push_back` appends at the tail, `pop_front` drops the head. -/
structure EventLog where
  events : List LogEntry
  consumed_count : Nat
deriving DecidableEq

/-- `EventLog::new`. -/
def EventLog.new : EventLog := ⟨[], 0⟩

/-- `EventLog::append`: evict under capacity pressure (preferring consumed
entries), then push the new entry at the back. -/
def EventLog.append (log : EventLog) (event : KeystrokeEvent) (timestamp_ms : Nat) :
    EventLog :=
  let log' :=
    if log.events.length ≥ EVENT_LOG_CAPACITY then
      if log.consumed_count > 0 then
        { events := log.events.drop (min log.consumed_count log.events.length)
          consumed_count := 0 }
      else
        { log with events := log.events.drop 1 }
    else log
  { log' with events := log'.events ++ [⟨event, timestamp_ms⟩] }

/-- `EventLog::unconsumed` (as a list rather than a lazy iterator). -/
def EventLog.unconsumed (log : EventLog) : List LogEntry :=
  log.events.drop log.consumed_count

/-- `EventLog::unconsumed_count` (`len().saturating_sub(consumed_count)`). -/
def EventLog.unconsumed_count (log : EventLog) : Nat :=
  log.events.length - log.consumed_count

/-- `EventLog::total_count`. -/
def EventLog.total_count (log : EventLog) : Nat := log.events.length

/-- `EventLog::consume`. -/
def EventLog.consume (log : EventLog) (count : Nat) : EventLog :=
  { log with consumed_count := min (log.consumed_count + count) log.events.length }

/-- `EventLog::compact`. -/
def EventLog.compact (log : EventLog) : EventLog :=
  if log.consumed_count > 0 then
    { events := log.events.drop (min log.consumed_count log.events.length)
      consumed_count := 0 }
  else log

/-! ## Summary (`crumbeez-lib/src/event_log.rs`) -/

/-- The per-variant tag name used by `Summary::from_events`. -/
def typeName : KeystrokeEvent → String
  | .TextTyped _ => "TextTyped"
  | .Shortcut _ => "Shortcut"
  | .Navigation _ => "Navigation"
  | .EditControl _ => "EditControl"
  | .Escape => "Escape"
  | .FunctionKey _ => "FunctionKey"
  | .SystemKey _ => "SystemKey"
  | .PaneFocused _ => "PaneFocused"

/-- `Summary`: the per-tag `HashMap<String, usize>` is modeled as its lookup
function (with 0 for absent keys, matching `or_insert(0)`). -/
structure Summary where
  events_consumed : Nat
  event_types : String → Nat

/-- `Summary::from_events`: count entries and entries-per-tag by a single pass. -/
def Summary.from_events (entries : List LogEntry) : Summary :=
  entries.foldl
    (fun s entry =>
      { events_consumed := s.events_consumed + 1
        event_types := fun name =>
          if name = typeName entry.event then s.event_types name + 1
          else s.event_types name })
    ⟨0, fun _ => 0⟩

/-! ## ActivityRing (`KeystrokeActivity` in `crumbeez-lib/src/lib.rs`) -/

/-- `KEYSTROKE_LOG_CAPACITY`. -/
def KEYSTROKE_LOG_CAPACITY : Nat := 200

/-- `KeystrokeActivity`: ring of completed events plus the byte cursor of the
live tail `TextTyped` buffer, if any. -/
structure KeystrokeActivity where
  events : List KeystrokeEvent
  cursor : Option Nat
deriving DecidableEq

/-- `KeystrokeActivity::new` / `Default`. -/
def KeystrokeActivity.new : KeystrokeActivity := ⟨[], none⟩

/-- `KeystrokeActivity::append`: enforce the 200-entry capacity, then push. -/
def KeystrokeActivity.append (a : KeystrokeActivity) (event : KeystrokeEvent) :
    KeystrokeActivity :=
  { a with events :=
      (if a.events.length ≥ KEYSTROKE_LOG_CAPACITY then a.events.drop 1 else a.events)
        ++ [event] }

/-- `try_coalesce`: the merged tail entry, or `none` when no merge applies
(in the source this mutates `last` in place and returns `bool`). -/
def try_coalesce (last new : KeystrokeEvent) : Option KeystrokeEvent :=
  match last, new with
  | .EditControl (.Backspace count), .EditControl (.Backspace _) =>
    some (.EditControl (.Backspace (count + 1)))
  | .EditControl (.Delete count), .EditControl (.Delete _) =>
    some (.EditControl (.Delete (count + 1)))
  | .Navigation prev, .Navigation next =>
    if prev.direction = next.direction ∧ prev.with_shift = next.with_shift ∧
        prev.with_ctrl = next.with_ctrl then
      some (.Navigation { prev with count := prev.count + next.count })
    else none
  | _, _ => none

/-- `KeystrokeActivity::coalesce_or_append`. -/
def KeystrokeActivity.coalesce_or_append (a : KeystrokeActivity)
    (event : KeystrokeEvent) : KeystrokeActivity :=
  match a.events.getLast? with
  | some last =>
    match try_coalesce last event with
    | some merged => { a with events := a.events.dropLast ++ [merged] }
    | none => a.append event
  | none => a.append event

/-- The `for _ in 0..count { pos = f(pos) }` loops in the Left/Right arms. -/
def stepN (f : Nat → Nat) : Nat → Nat → Nat
  | 0, pos => pos
  | k + 1, pos => stepN f k (f pos)

/-- `KeystrokeActivity::push_event`: the full live-buffer reconstruction
dispatch of the display-side consumer. -/
def KeystrokeActivity.push_event (a : KeystrokeActivity) (event : KeystrokeEvent) :
    KeystrokeActivity :=
  match event with
  | .TextTyped incoming =>
    match a.cursor, a.events.getLast? with
    | some cursor, some (.TextTyped buf) =>
      { events := a.events.dropLast ++ [.TextTyped (insertAt buf cursor incoming)]
        cursor := some (cursor + utf8Len incoming) }
    | _, _ =>
      let len := utf8Len incoming
      { (a.append (.TextTyped incoming)) with cursor := some len }
  | .EditControl (.Backspace _) =>
    match a.cursor with
    | some cursor =>
      if cursor > 0 then
        match a.events.getLast? with
        | some (.TextTyped buf) =>
          let prev := prev_char_boundary buf cursor
          let buf' := removeRange buf prev cursor
          if buf'.isEmpty then { events := a.events.dropLast, cursor := none }
          else { events := a.events.dropLast ++ [.TextTyped buf'], cursor := some prev }
        | _ => a.coalesce_or_append event
      else a
    | none => a.coalesce_or_append event
  | .EditControl (.Delete _) =>
    match a.cursor with
    | some cursor =>
      match a.events.getLast? with
      | some (.TextTyped buf) =>
        if cursor < utf8Len buf then
          let next := next_char_boundary buf cursor
          let buf' := removeRange buf cursor next
          if buf'.isEmpty then { events := a.events.dropLast, cursor := none }
          else { events := a.events.dropLast ++ [.TextTyped buf'], cursor := some cursor }
        else a
      | _ => a.coalesce_or_append event
    | none => a.coalesce_or_append event
  | .Navigation nav =>
    match nav.direction with
    | .Left | .Right =>
      match a.cursor, a.events.getLast? with
      | some cursor, some (.TextTyped buf) =>
        let new_cursor :=
          if nav.direction = .Left then
            if nav.with_ctrl then word_left buf cursor
            else stepN (fun pos => prev_char_boundary buf pos) nav.count cursor
          else
            if nav.with_ctrl then word_right buf cursor
            else stepN (fun pos => next_char_boundary buf pos) nav.count cursor
        { a with cursor := some new_cursor }
      | _, _ => a.coalesce_or_append (.Navigation nav)
    | .Home =>
      if a.cursor.isSome then { a with cursor := some 0 }
      else a.coalesce_or_append (.Navigation nav)
    | .End =>
      match a.cursor, a.events.getLast? with
      | some _, some (.TextTyped buf) => { a with cursor := some (utf8Len buf) }
      | _, _ => a.coalesce_or_append (.Navigation nav)
    | .Up | .Down | .PageUp | .PageDown =>
      KeystrokeActivity.coalesce_or_append { a with cursor := none } (.Navigation nav)
  | _ => KeystrokeActivity.coalesce_or_append { a with cursor := none } event

/-! ## Durable-side consumer (`zellij-plugin/src/main.rs`) -/

/-- The durable-path fragment of the plugin `State`: the live buffer feeding
the `EventLog` (display/rendering and timer bookkeeping omitted). -/
structure DurableState where
  live_text : Option (List Char)
  live_cursor : Nat
  event_log : EventLog
deriving DecidableEq

/-- `State::seal_and_log`: flush a non-empty live buffer as a `TextTyped`
entry, then append the triggering event.  `now` stands for
`Self::current_time_ms()`. -/
def seal_and_log (st : DurableState) (event : KeystrokeEvent) (now : Nat) :
    DurableState :=
  let log1 :=
    match st.live_text with
    | some text => if text.isEmpty then st.event_log else st.event_log.append (.TextTyped text) now
    | none => st.event_log
  { live_text := none, live_cursor := 0, event_log := log1.append event now }

/-- `State::process_for_event_log`: the durable-side live-buffer
reconstruction dispatch (the trailing `last_activity_time` update is
timer bookkeeping and is omitted). -/
def process_for_event_log (st : DurableState) (event : KeystrokeEvent) (now : Nat) :
    DurableState :=
  match event with
  | .TextTyped s =>
    match st.live_text with
    | some text =>
      { st with
        live_text := some (insertAt text st.live_cursor s)
        live_cursor := st.live_cursor + utf8Len s }
    | none => { st with live_text := some s, live_cursor := utf8Len s }
  | .EditControl (.Backspace _) =>
    match st.live_text with
    | some text =>
      if st.live_cursor > 0 then
        let prev := prev_char_boundary text st.live_cursor
        let text' := removeRange text prev st.live_cursor
        { st with
          live_text := if text'.isEmpty then none else some text'
          live_cursor := prev }
      else st
    | none => st
  | .EditControl (.Delete _) =>
    match st.live_text with
    | some text =>
      if st.live_cursor < utf8Len text then
        let next := next_char_boundary text st.live_cursor
        let text' := removeRange text st.live_cursor next
        { st with live_text := if text'.isEmpty then none else some text' }
      else st
    | none => st
  | .Navigation nav =>
    match nav.direction with
    | .Left =>
      match st.live_text with
      | some text =>
        { st with
          live_cursor :=
            if nav.with_ctrl then word_left text st.live_cursor
            else prev_char_boundary text st.live_cursor }
      | none => st
    | .Right =>
      match st.live_text with
      | some text =>
        { st with
          live_cursor :=
            if nav.with_ctrl then word_right text st.live_cursor
            else next_char_boundary text st.live_cursor }
      | none => st
    | .Home => { st with live_cursor := 0 }
    | .End =>
      match st.live_text with
      | some text => { st with live_cursor := utf8Len text }
      | none => st
    | .Up | .Down | .PageUp | .PageDown => seal_and_log st event now
  | _ => seal_and_log st event now

/-! ## Summarizer (`zellij-plugin/src/event_log_io.rs`) -/

/-- `generate_summary`: the structural aggregation step; the function's final
Markdown rendering of the `Summary` is omitted (its content is exactly the
returned `Summary`).  Mutation of the log is modeled by returning the
updated log alongside the optional summary. -/
def generate_summary (event_log : EventLog) : Option Summary × EventLog :=
  let unconsumed := event_log.unconsumed
  if unconsumed.isEmpty then (none, event_log)
  else
    let summary := Summary.from_events unconsumed
    let count := summary.events_consumed
    (some summary, event_log.consume count)

/-! ## Basic lemmas about the summarizer fold -/

theorem from_events_foldl (l : List LogEntry) (s0 : Summary) :
    (l.foldl
      (fun s entry =>
        { events_consumed := s.events_consumed + 1
          event_types := fun name =>
            if name = typeName entry.event then s.event_types name + 1
            else s.event_types name })
      s0).events_consumed = s0.events_consumed + l.length := by
  induction l generalizing s0 with
  | nil => simp
  | cons e rest ih => simp [ih]; omega

theorem from_events_types_foldl (l : List LogEntry) (s0 : Summary) (name : String) :
    (l.foldl
      (fun s entry =>
        { events_consumed := s.events_consumed + 1
          event_types := fun nm =>
            if nm = typeName entry.event then s.event_types nm + 1
            else s.event_types nm })
      s0).event_types name
      = s0.event_types name
          + (l.filter (fun entry => typeName entry.event = name)).length := by
  induction l generalizing s0 with
  | nil => simp
  | cons e rest ih =>
    simp only [List.foldl_cons, List.filter_cons, ih]
    by_cases h : typeName e.event = name
    · simp [h]; omega
    · have h' : ¬ (name = typeName e.event) := fun hh => h hh.symm
      simp [h, h', decide_eq_true_eq]

theorem from_events_count (l : List LogEntry) :
    (Summary.from_events l).events_consumed = l.length := by
  simpa using from_events_foldl l ⟨0, fun _ => 0⟩

theorem from_events_types (l : List LogEntry) (name : String) :
    (Summary.from_events l).event_types name
      = (l.filter (fun entry => typeName entry.event = name)).length := by
  simpa using from_events_types_foldl l ⟨0, fun _ => 0⟩ name

/-! ## Claim C1: DurableLog append at capacity -/

/-- C1: when a `DurableLog` has reached capacity (10000), `append` first
evicts — `min(consumedCount, length)` oldest entries with the watermark reset
to 0 when `consumedCount > 0`, exactly one oldest entry with the watermark
left at 0 otherwise — and then appends the new entry; so a full log with
`consumedCount = k > 0` ends with length `(capacity - k) + 1` and watermark 0,
and a full log with `consumedCount = 0` stays at capacity with watermark 0. -/
theorem claim_C1_append_at_capacity (log : EventLog) (e : KeystrokeEvent) (t : Nat)
    (hlen : log.events.length = EVENT_LOG_CAPACITY) :
    (0 < log.consumed_count →
      (log.append e t).events
          = log.events.drop (min log.consumed_count log.events.length) ++ [⟨e, t⟩]
        ∧ (log.append e t).consumed_count = 0)
    ∧ (log.consumed_count = 0 →
      (log.append e t).events = log.events.drop 1 ++ [⟨e, t⟩]
        ∧ (log.append e t).consumed_count = 0
        ∧ (log.append e t).events.length = EVENT_LOG_CAPACITY)
    ∧ (0 < log.consumed_count → log.consumed_count ≤ EVENT_LOG_CAPACITY →
      (log.append e t).events.length = (EVENT_LOG_CAPACITY - log.consumed_count) + 1) := by
  have hge : log.events.length ≥ EVENT_LOG_CAPACITY := le_of_eq hlen.symm
  refine ⟨fun hpos => ?_, fun hzero => ?_, fun hpos hle => ?_⟩
  · simp [EventLog.append, hge, hpos]
  · simp [EventLog.append, hge, hzero, hlen]
    have : 1 ≤ EVENT_LOG_CAPACITY := by norm_num [EVENT_LOG_CAPACITY]
    omega
  · simp [EventLog.append, hge, hpos, hlen]
    omega

/-- Witness for C1 at a concrete log: 10000 entries, watermark 5. -/
theorem claim_C1_append_at_capacity_witness :
    (EventLog.mk (List.replicate 10000 ⟨.Escape, 0⟩) 5).events.length
        = EVENT_LOG_CAPACITY
    ∧ (0 < (5 : Nat) →
        ((EventLog.mk (List.replicate 10000 ⟨.Escape, 0⟩) 5).append .Escape 1).events
            = (List.replicate 10000 (⟨.Escape, 0⟩ : LogEntry)).drop (min 5 (List.replicate 10000 (⟨.Escape, 0⟩ : LogEntry)).length) ++ [⟨.Escape, 1⟩]
          ∧ ((EventLog.mk (List.replicate 10000 ⟨.Escape, 0⟩) 5).append .Escape 1).consumed_count = 0)
    ∧ (0 < (5 : Nat) → (5 : Nat) ≤ EVENT_LOG_CAPACITY →
        ((EventLog.mk (List.replicate 10000 ⟨.Escape, 0⟩) 5).append .Escape 1).events.length
          = (EVENT_LOG_CAPACITY - 5) + 1) := by
  have hlen : (EventLog.mk (List.replicate 10000 ⟨.Escape, 0⟩) 5).events.length
      = EVENT_LOG_CAPACITY := by
    show (List.replicate 10000 (⟨.Escape, 0⟩ : LogEntry)).length = EVENT_LOG_CAPACITY
    rw [List.length_replicate]; rfl
  have h := claim_C1_append_at_capacity (EventLog.mk (List.replicate 10000 ⟨.Escape, 0⟩) 5)
    .Escape 1 hlen
  exact ⟨hlen, h.1, h.2.2⟩

/-! ## Claim C8: consume / compact algebra -/

/-- C8 counterexample: for a log with a nonzero watermark the claimed equation
"`consume(n)` then `compact()` leaves `unconsumedCount()` equal to the
pre-compact `totalCount()` minus `n` (clamped)" fails: with two entries,
watermark 1 and `n = 0` the code yields 1 unconsumed entry, the claim
predicts 2. -/
theorem claim_C8_counterexample :
    ¬ (((EventLog.mk [⟨.Escape, 0⟩, ⟨.Escape, 1⟩] 1).consume 0).compact.unconsumed_count
        = (EventLog.mk [⟨.Escape, 0⟩, ⟨.Escape, 1⟩] 1).total_count - 0) := by
  decide

/-- C8 (amended): for every log satisfying the watermark invariant
`consumedCount ≤ length`, `consume(n)` sets the watermark to
`min(consumedCount + n, length)` — so `consume 0` is the identity and the
watermark never decreases — and `consume(n)` followed by `compact()`
physically drops the consumed prefix, resets the watermark to 0, and leaves
`unconsumedCount()` equal to `totalCount()` minus `min(consumedCount + n,
totalCount)`; this equals `totalCount() - n` (clamped) when the watermark was
0 before the call, not in general. -/
theorem claim_C8_consume_compact (log : EventLog) (n : Nat)
    (hinv : log.consumed_count ≤ log.events.length) :
    (log.consume n).consumed_count = min (log.consumed_count + n) log.events.length
    ∧ log.consume 0 = log
    ∧ log.consumed_count ≤ (log.consume n).consumed_count
    ∧ ((log.consume n).compact).events
        = log.events.drop (min (log.consumed_count + n) log.events.length)
    ∧ ((log.consume n).compact).consumed_count = 0
    ∧ ((log.consume n).compact).unconsumed_count
        = log.total_count - min (log.consumed_count + n) log.total_count
    ∧ (log.consumed_count = 0 →
        ((log.consume n).compact).unconsumed_count = log.total_count - n) := by
  have h1 : (log.consume n).consumed_count = min (log.consumed_count + n) log.events.length := rfl
  have h0 : log.consume 0 = log := by
    simp [EventLog.consume, Nat.min_eq_left hinv]
  have hmono : log.consumed_count ≤ (log.consume n).consumed_count := by
    rw [h1]; omega
  have hcev : ((log.consume n).compact).events
      = log.events.drop (min (log.consumed_count + n) log.events.length) := by
    by_cases hpos : 0 < min (log.consumed_count + n) log.events.length
    · simp only [EventLog.compact, EventLog.consume, hpos, if_true]
      congr 1
      omega
    · have hz : min (log.consumed_count + n) log.events.length = 0 := by omega
      simp [EventLog.compact, EventLog.consume, hz]
  have hccc : ((log.consume n).compact).consumed_count = 0 := by
    by_cases hpos : 0 < min (log.consumed_count + n) log.events.length
    · simp [EventLog.compact, EventLog.consume, hpos]
    · have hz : min (log.consumed_count + n) log.events.length = 0 := by omega
      simp [EventLog.compact, EventLog.consume, hz]
  refine ⟨h1, h0, hmono, hcev, hccc, ?_, ?_⟩
  · simp [EventLog.unconsumed_count, hcev, hccc, EventLog.total_count]
  · intro hz
    simp [EventLog.unconsumed_count, hcev, hccc, EventLog.total_count, hz]
    omega

/-- Witness for C8 at a concrete log: three entries, watermark 1, `n = 1`. -/
theorem claim_C8_consume_compact_witness :
    (EventLog.mk [⟨.Escape, 0⟩, ⟨.Escape, 1⟩, ⟨.Escape, 2⟩] 1).consumed_count
        ≤ (EventLog.mk [⟨.Escape, 0⟩, ⟨.Escape, 1⟩, ⟨.Escape, 2⟩] 1).events.length
    ∧ ((EventLog.mk [⟨.Escape, 0⟩, ⟨.Escape, 1⟩, ⟨.Escape, 2⟩] 1).consume 1).consumed_count
        = min ((EventLog.mk [⟨.Escape, 0⟩, ⟨.Escape, 1⟩, ⟨.Escape, 2⟩] 1).consumed_count + 1)
            (EventLog.mk [⟨.Escape, 0⟩, ⟨.Escape, 1⟩, ⟨.Escape, 2⟩] 1).events.length := by
  have hinv : (EventLog.mk [⟨.Escape, 0⟩, ⟨.Escape, 1⟩, ⟨.Escape, 2⟩] 1).consumed_count
      ≤ (EventLog.mk [⟨.Escape, 0⟩, ⟨.Escape, 1⟩, ⟨.Escape, 2⟩] 1).events.length := by decide
  exact ⟨hinv,
    (claim_C8_consume_compact (EventLog.mk [⟨.Escape, 0⟩, ⟨.Escape, 1⟩, ⟨.Escape, 2⟩] 1) 1 hinv).1⟩

/-! ## Claim C5: ActivityRing coalescing -/

/-- C5 counterexample: Backspace/Delete coalescing does not sum the two
counts.  With tail `Backspace{1}` and incoming `Backspace{2}` the claim
predicts `Backspace{3}`, but `try_coalesce` increments the stored count by
one, producing `Backspace{2}`. -/
theorem claim_C5_counterexample :
    (KeystrokeActivity.push_event ⟨[.EditControl (.Backspace 1)], none⟩
        (.EditControl (.Backspace 2))).events = [.EditControl (.Backspace 2)]
    ∧ (KeystrokeActivity.push_event ⟨[.EditControl (.Backspace 1)], none⟩
        (.EditControl (.Backspace 2))).events ≠ [.EditControl (.Backspace 3)] := by
  decide

/-- With no live buffer, every `Navigation` event goes through the
coalesce-or-append path of the display consumer (for `Up`, `Down`, `PageUp`,
`PageDown` the source clears the — already absent — cursor first). -/
theorem push_nav_no_buffer (a : KeystrokeActivity) (q : NavigationEvent)
    (hcur : a.cursor = none) :
    a.push_event (.Navigation q) = a.coalesce_or_append (.Navigation q) := by
  have ha : { a with cursor := none } = a := by
    cases a; simp_all
  cases hq : q.direction <;>
    simp [KeystrokeActivity.push_event, hq, hcur, ha]

/-- C5 (amended): with no live buffer, appending `Backspace{m}`
(resp. `Delete{m}`) onto a tail `Backspace{k}` (resp. `Delete{k}`) replaces
the tail by a single entry with count `k + 1` — the incoming count is ignored,
so the counts are summed only in the `m = 1` case produced by the classifier —
while appending a `Navigation` event onto a tail `Navigation` with identical
direction, `with_shift` and `with_ctrl` does sum the repeat counts; in
particular five consecutive `Navigation(Left, 1)` events collapse into the
single entry `Navigation(Left, 5)`. -/
theorem claim_C5_coalescing :
    (∀ (a : KeystrokeActivity) (k m : Nat), a.cursor = none →
      a.events.getLast? = some (.EditControl (.Backspace k)) →
      (a.push_event (.EditControl (.Backspace m))).events
        = a.events.dropLast ++ [.EditControl (.Backspace (k + 1))])
    ∧ (∀ (a : KeystrokeActivity) (k m : Nat), a.cursor = none →
      a.events.getLast? = some (.EditControl (.Delete k)) →
      (a.push_event (.EditControl (.Delete m))).events
        = a.events.dropLast ++ [.EditControl (.Delete (k + 1))])
    ∧ (∀ (a : KeystrokeActivity) (p q : NavigationEvent), a.cursor = none →
      a.events.getLast? = some (.Navigation p) →
      p.direction = q.direction → p.with_shift = q.with_shift →
      p.with_ctrl = q.with_ctrl →
      (a.push_event (.Navigation q)).events
        = a.events.dropLast ++ [.Navigation { p with count := p.count + q.count }])
    ∧ ((List.replicate 5 (.Navigation ⟨.Left, 1, false, false⟩)).foldl
        KeystrokeActivity.push_event KeystrokeActivity.new).events
      = [.Navigation ⟨.Left, 5, false, false⟩] := by
  refine ⟨?_, ?_, ?_, by decide⟩
  · intro a k m hcur hlast
    simp [KeystrokeActivity.push_event, hcur, KeystrokeActivity.coalesce_or_append,
      hlast, try_coalesce]
  · intro a k m hcur hlast
    simp [KeystrokeActivity.push_event, hcur, KeystrokeActivity.coalesce_or_append,
      hlast, try_coalesce]
  · intro a p q hcur hlast hdir hshift hctrl
    rw [push_nav_no_buffer a q hcur]
    simp [KeystrokeActivity.coalesce_or_append, hlast, try_coalesce, hdir, hshift, hctrl]

/-- Witness for C5 at concrete inputs: tail `Backspace{1}` gets count 2. -/
theorem claim_C5_coalescing_witness :
    (KeystrokeActivity.mk [.EditControl (.Backspace 1)] none).cursor = none
    ∧ ((KeystrokeActivity.mk [.EditControl (.Backspace 1)] none).push_event
        (.EditControl (.Backspace 1))).events
      = (KeystrokeActivity.mk [.EditControl (.Backspace 1)] none).events.dropLast
          ++ [.EditControl (.Backspace (1 + 1))] :=
  ⟨rfl, claim_C5_coalescing.1 ⟨[.EditControl (.Backspace 1)], none⟩ 1 1 rfl rfl⟩

/-! ## Claim C9: durable path drops buffer-less Left/Right/Home/End -/

/-- C9: a `Navigation` event with direction Left, Right, Home or End arriving
when the durable side has no live buffer leaves the durable `EventLog`
(entries and watermark) unchanged and creates no buffer, while the
display-side `KeystrokeActivity` with no live buffer handles the same event
through its normal coalesce-or-append path. -/
theorem claim_C9_bufferless_nav (st : DurableState) (a : KeystrokeActivity)
    (nav : NavigationEvent) (now : Nat)
    (hdir : nav.direction = .Left ∨ nav.direction = .Right ∨
      nav.direction = .Home ∨ nav.direction = .End)
    (hst : st.live_text = none) (ha : a.cursor = none) :
    (process_for_event_log st (.Navigation nav) now).event_log = st.event_log
    ∧ (process_for_event_log st (.Navigation nav) now).live_text = none
    ∧ a.push_event (.Navigation nav) = a.coalesce_or_append (.Navigation nav) := by
  rcases hdir with h | h | h | h <;>
    simp [process_for_event_log, KeystrokeActivity.push_event, h, hst, ha]

/-- Witness for C9 at a concrete state and event. -/
theorem claim_C9_bufferless_nav_witness :
    ((⟨.Left, 1, false, false⟩ : NavigationEvent).direction = .Left ∨
      (⟨.Left, 1, false, false⟩ : NavigationEvent).direction = .Right ∨
      (⟨.Left, 1, false, false⟩ : NavigationEvent).direction = .Home ∨
      (⟨.Left, 1, false, false⟩ : NavigationEvent).direction = .End)
    ∧ (process_for_event_log ⟨none, 0, EventLog.mk [⟨.Escape, 0⟩] 0⟩
          (.Navigation ⟨.Left, 1, false, false⟩) 5).event_log
        = EventLog.mk [⟨.Escape, 0⟩] 0
    ∧ (process_for_event_log ⟨none, 0, EventLog.mk [⟨.Escape, 0⟩] 0⟩
          (.Navigation ⟨.Left, 1, false, false⟩) 5).live_text = none
    ∧ KeystrokeActivity.push_event ⟨[], none⟩ (.Navigation ⟨.Left, 1, false, false⟩)
        = KeystrokeActivity.coalesce_or_append ⟨[], none⟩
            (.Navigation ⟨.Left, 1, false, false⟩) := by
  refine ⟨Or.inl rfl, ?_⟩
  have h := claim_C9_bufferless_nav ⟨none, 0, EventLog.mk [⟨.Escape, 0⟩] 0⟩ ⟨[], none⟩
    ⟨.Left, 1, false, false⟩ 5 (Or.inl rfl) rfl rfl
  exact h

/-! ## Claim C3: sealing never emits an empty TextTyped entry -/

/-- C3: on both consumers the sequence `TextTyped "ab"`, Backspace, Backspace,
`EditControl(Enter)` from the empty state logs exactly one entry,
`EditControl(Enter)`; and on the durable side sealing with an absent or empty
live buffer appends only the triggering event. -/
theorem claim_C3_no_empty_seal :
    ([KeystrokeEvent.TextTyped ['a','b'], .EditControl (.Backspace 1),
        .EditControl (.Backspace 1), .EditControl .Enter].foldl
        KeystrokeActivity.push_event KeystrokeActivity.new).events
      = [.EditControl .Enter]
    ∧ ([(KeystrokeEvent.TextTyped ['a','b'], 10), (.EditControl (.Backspace 1), 11),
        (.EditControl (.Backspace 1), 12), (.EditControl .Enter, 13)].foldl
        (fun st et => process_for_event_log st et.1 et.2)
        ⟨none, 0, EventLog.new⟩).event_log.events
      = [⟨.EditControl .Enter, 13⟩]
    ∧ (∀ (st : DurableState) (e : KeystrokeEvent) (now : Nat),
        st.live_text = none ∨ st.live_text = some [] →
        (seal_and_log st e now).event_log = st.event_log.append e now) := by
  refine ⟨by decide, by decide, ?_⟩
  intro st e now h
  rcases h with h | h <;> simp [seal_and_log, h]

/-- Witness for C3's sealing conjunct at a concrete state. -/
theorem claim_C3_no_empty_seal_witness :
    ((⟨none, 0, EventLog.new⟩ : DurableState).live_text = none ∨
      (⟨none, 0, EventLog.new⟩ : DurableState).live_text = some [])
    ∧ (seal_and_log ⟨none, 0, EventLog.new⟩ .Escape 3).event_log
        = EventLog.new.append .Escape 3 :=
  ⟨Or.inl rfl, claim_C3_no_empty_seal.2.2 ⟨none, 0, EventLog.new⟩ .Escape 3 (Or.inl rfl)⟩

/-! ## Claim C7: generate_summary -/

/-- C7: `generate_summary` returns `none` exactly when the unconsumed count is
0, leaving the log unchanged in that case; otherwise it returns a `Summary`
whose `events_consumed` is the number of unconsumed entries, whose per-tag
counts are the counts over exactly the unconsumed slice, and it advances the
watermark by exactly that number without touching the entries. -/
theorem claim_C7_generate_summary (log : EventLog) :
    ((generate_summary log).1 = none ↔ log.unconsumed_count = 0)
    ∧ (log.unconsumed_count = 0 → (generate_summary log).2 = log)
    ∧ (0 < log.unconsumed_count →
      ∃ s, (generate_summary log).1 = some s
        ∧ s.events_consumed = log.unconsumed_count
        ∧ (∀ name, s.event_types name
            = (log.unconsumed.filter (fun entry => typeName entry.event = name)).length)
        ∧ (generate_summary log).2.events = log.events
        ∧ (generate_summary log).2.consumed_count
            = log.consumed_count + log.unconsumed_count) := by
  have hulen : log.unconsumed.length = log.unconsumed_count := by
    simp [EventLog.unconsumed, EventLog.unconsumed_count]
  by_cases hz : log.unconsumed_count = 0
  · have hempty : log.unconsumed.isEmpty := by
      rw [List.isEmpty_iff_length_eq_zero, hulen, hz]
    refine ⟨⟨fun _ => hz, fun _ => ?_⟩, fun _ => ?_, fun hpos => absurd hz (by omega)⟩
    · simp [generate_summary, hempty]
    · simp [generate_summary, hempty]
  · have hne : ¬ log.unconsumed.isEmpty := by
      rw [List.isEmpty_iff_length_eq_zero, hulen]; exact hz
    have hlt : log.consumed_count < log.events.length := by
      have := hulen
      simp [EventLog.unconsumed_count] at hz ⊢
      omega
    refine ⟨⟨fun h => ?_, fun h => absurd h hz⟩, fun h => absurd h hz, fun _ => ?_⟩
    · exfalso
      simp [generate_summary, hne] at h
    · refine ⟨Summary.from_events log.unconsumed, ?_, ?_, ?_, ?_, ?_⟩
      · simp [generate_summary, hne]
      · rw [from_events_count, hulen]
      · intro name; exact from_events_types log.unconsumed name
      · simp [generate_summary, hne, EventLog.consume]
      · simp [generate_summary, hne, EventLog.consume, from_events_count, hulen,
          EventLog.unconsumed_count]
        omega

/-- Witness for C7 at a concrete log with one unconsumed entry. -/
theorem claim_C7_generate_summary_witness :
    (0 : Nat) < (EventLog.mk [⟨.Escape, 0⟩] 0).unconsumed_count
    ∧ ((generate_summary (EventLog.mk [⟨.Escape, 0⟩] 0)).1 = none
        ↔ (EventLog.mk [⟨.Escape, 0⟩] 0).unconsumed_count = 0)
    ∧ (∃ s, (generate_summary (EventLog.mk [⟨.Escape, 0⟩] 0)).1 = some s
        ∧ s.events_consumed = (EventLog.mk [⟨.Escape, 0⟩] 0).unconsumed_count
        ∧ (∀ name, s.event_types name
            = ((EventLog.mk [⟨.Escape, 0⟩] 0).unconsumed.filter
                (fun entry => typeName entry.event = name)).length)
        ∧ (generate_summary (EventLog.mk [⟨.Escape, 0⟩] 0)).2.events
            = (EventLog.mk [⟨.Escape, 0⟩] 0).events
        ∧ (generate_summary (EventLog.mk [⟨.Escape, 0⟩] 0)).2.consumed_count
            = (EventLog.mk [⟨.Escape, 0⟩] 0).consumed_count
                + (EventLog.mk [⟨.Escape, 0⟩] 0).unconsumed_count) := by
  refine ⟨by decide, (claim_C7_generate_summary _).1,
    (claim_C7_generate_summary _).2.2 (by decide)⟩

/-! ## Boundary arithmetic lemmas -/

theorem utf8Len_nil : utf8Len [] = 0 := rfl

theorem utf8Len_cons (c : Char) (s : List Char) :
    utf8Len (c :: s) = c.utf8Size + utf8Len s := by
  simp [utf8Len]

theorem utf8Len_append (a b : List Char) :
    utf8Len (a ++ b) = utf8Len a + utf8Len b := by
  simp [utf8Len]

theorem isCharBoundary_zero (s : List Char) : isCharBoundary s 0 = true := by
  cases s <;> rfl

theorem isCharBoundary_cons_pos (c : Char) (rest : List Char) (p : Nat) (hp : 0 < p) :
    isCharBoundary (c :: rest) p
      = if p < c.utf8Size then false else isCharBoundary rest (p - c.utf8Size) := by
  cases p with
  | zero => omega
  | succ p => rfl

theorem isCharBoundary_utf8Len (s : List Char) :
    isCharBoundary s (utf8Len s) = true := by
  induction s with
  | nil => rfl
  | cons c rest ih =>
    have hc := Char.utf8Size_pos c
    rw [utf8Len_cons, isCharBoundary_cons_pos c rest _ (by omega)]
    have hlt : ¬ (c.utf8Size + utf8Len rest < c.utf8Size) := by omega
    simp [hlt, ih]

theorem isCharBoundary_le (s : List Char) (p : Nat)
    (h : isCharBoundary s p = true) : p ≤ utf8Len s := by
  induction s generalizing p with
  | nil =>
    cases p with
    | zero => simp [utf8Len_nil]
    | succ p => simp [isCharBoundary] at h
  | cons c rest ih =>
    cases p with
    | zero => omega
    | succ p =>
      rw [isCharBoundary_cons_pos c rest _ (by omega)] at h
      rw [utf8Len_cons]
      by_cases hlt : p + 1 < c.utf8Size
      · simp [hlt] at h
      · simp [hlt] at h
        have := ih _ h
        omega

theorem byteTake_append_byteDrop (s : List Char) (p : Nat) :
    byteTake s p ++ byteDrop s p = s := by
  induction s generalizing p with
  | nil => rfl
  | cons c rest ih =>
    by_cases hlt : p < c.utf8Size <;> simp [byteTake, byteDrop, hlt, ih]

theorem utf8Len_byteTake (s : List Char) (p : Nat)
    (h : isCharBoundary s p = true) : utf8Len (byteTake s p) = p := by
  induction s generalizing p with
  | nil =>
    cases p with
    | zero => rfl
    | succ p => simp [isCharBoundary] at h
  | cons c rest ih =>
    cases p with
    | zero =>
      have hc := Char.utf8Size_pos c
      simp [byteTake, hc, utf8Len_nil]
    | succ p =>
      rw [isCharBoundary_cons_pos c rest _ (by omega)] at h
      by_cases hlt : p + 1 < c.utf8Size
      · simp [hlt] at h
      · simp [hlt] at h
        have hrec := ih _ h
        simp [byteTake, Nat.not_lt.mp (by omega : ¬ (p + 1 < c.utf8Size)), hlt,
          utf8Len_cons, hrec]

theorem utf8Len_byteTake_add_byteDrop (s : List Char) (p : Nat) :
    utf8Len (byteTake s p) + utf8Len (byteDrop s p) = utf8Len s := by
  have := congrArg utf8Len (byteTake_append_byteDrop s p)
  rwa [utf8Len_append] at this

theorem utf8Len_byteDrop (s : List Char) (p : Nat)
    (h : isCharBoundary s p = true) : utf8Len (byteDrop s p) = utf8Len s - p := by
  have h1 := utf8Len_byteTake_add_byteDrop s p
  rw [utf8Len_byteTake s p h] at h1
  omega

theorem isCharBoundary_append_left (a b : List Char) :
    isCharBoundary (a ++ b) (utf8Len a) = true := by
  induction a with
  | nil => simpa [utf8Len_nil] using isCharBoundary_zero b
  | cons c a' ih =>
    have hc := Char.utf8Size_pos c
    rw [List.cons_append, utf8Len_cons, isCharBoundary_cons_pos _ _ _ (by omega)]
    have hlt : ¬ (c.utf8Size + utf8Len a' < c.utf8Size) := by omega
    simp [hlt, ih]

theorem boundaryDown_isBoundary (s : List Char) (p : Nat) :
    isCharBoundary s (boundaryDown s p) = true := by
  induction p with
  | zero => simpa [boundaryDown] using isCharBoundary_zero s
  | succ p ih =>
    rw [boundaryDown]
    by_cases h : isCharBoundary s (p + 1) <;> simp [h, ih]

theorem boundaryDown_le (s : List Char) (p : Nat) : boundaryDown s p ≤ p := by
  induction p with
  | zero => simp [boundaryDown]
  | succ p ih =>
    rw [boundaryDown]
    by_cases h : isCharBoundary s (p + 1)
    · simp [h]
    · simp [h]
      omega

theorem prev_char_boundary_isBoundary (s : List Char) (pos : Nat) :
    isCharBoundary s (prev_char_boundary s pos) = true := by
  rw [prev_char_boundary]
  by_cases h : pos = 0
  · simp [h, isCharBoundary_zero]
  · simp [h, boundaryDown_isBoundary]

theorem prev_char_boundary_le (s : List Char) (pos : Nat) :
    prev_char_boundary s pos ≤ pos := by
  rw [prev_char_boundary]
  by_cases h : pos = 0
  · simp [h]
  · simp only [h, if_false]
    have := boundaryDown_le s (pos - 1)
    omega

theorem prev_char_boundary_lt (s : List Char) (pos : Nat) (h : 0 < pos) :
    prev_char_boundary s pos < pos := by
  rw [prev_char_boundary]
  have hne : ¬ (pos = 0) := by omega
  simp only [hne, if_false]
  have := boundaryDown_le s (pos - 1)
  omega

theorem boundaryUp_spec (s : List Char) (p : Nat) (hle : p ≤ utf8Len s) :
    isCharBoundary s (boundaryUp s p) = true
      ∧ p ≤ boundaryUp s p ∧ boundaryUp s p ≤ utf8Len s := by
  induction p using boundaryUp.induct s with
  | case1 p hcond ih =>
    rw [boundaryUp, dif_pos hcond]
    have := ih (by omega)
    refine ⟨this.1, by omega, this.2.2⟩
  | case2 p hcond =>
    rw [boundaryUp, dif_neg hcond]
    by_cases hb : isCharBoundary s p = true
    · exact ⟨hb, le_refl _, hle⟩
    · have hpe : p = utf8Len s := by
        rcases Classical.not_and_iff_or_not_not.mp hcond with h | h
        · omega
        · exact absurd hb (by simpa using h)
      exact ⟨by rw [hpe]; exact isCharBoundary_utf8Len s, le_refl _, hle⟩

theorem next_char_boundary_isBoundary (s : List Char) (pos : Nat) :
    isCharBoundary s (next_char_boundary s pos) = true := by
  rw [next_char_boundary]
  by_cases h : pos ≥ utf8Len s
  · simp [h, isCharBoundary_utf8Len]
  · simp only [h, if_false]
    exact (boundaryUp_spec s (pos + 1) (by omega)).1

theorem next_char_boundary_le (s : List Char) (pos : Nat) :
    next_char_boundary s pos ≤ utf8Len s := by
  rw [next_char_boundary]
  by_cases h : pos ≥ utf8Len s
  · simp [h]
  · simp only [h, if_false]
    exact (boundaryUp_spec s (pos + 1) (by omega)).2.2

theorem next_char_boundary_gt (s : List Char) (pos : Nat) (h : pos < utf8Len s) :
    pos < next_char_boundary s pos := by
  rw [next_char_boundary]
  have hne : ¬ (pos ≥ utf8Len s) := by omega
  simp only [hne, if_false]
  have := (boundaryUp_spec s (pos + 1) (by omega)).2.1
  omega

/-! ## Word-movement and edit lemmas -/

theorem charIndicesFrom_mem (t : List Char) (n i : Nat) (c : Char)
    (h : (i, c) ∈ charIndicesFrom n t) :
    ∃ t1 t2, t = t1 ++ c :: t2 ∧ i = n + utf8Len t1 := by
  induction t generalizing n with
  | nil => simp [charIndicesFrom] at h
  | cons d rest ih =>
    rw [charIndicesFrom] at h
    rcases List.mem_cons.mp h with h | h
    · have hic : i = n ∧ c = d := by simpa using h
      exact ⟨[], rest, by rw [hic.2]; rfl, by simp [hic.1, utf8Len_nil]⟩
    · obtain ⟨t1, t2, ht, hi⟩ := ih _ h
      exact ⟨d :: t1, t2, by rw [ht]; simp, by rw [hi, utf8Len_cons]; omega⟩

theorem wlSkipToWord_subset (l : List (Nat × Char)) :
    ∀ x ∈ wlSkipToWord l, x ∈ l := by
  induction l with
  | nil => simp [wlSkipToWord]
  | cons hd rest ih =>
    intro x hx
    obtain ⟨i, c⟩ := hd
    rw [wlSkipToWord] at hx
    by_cases hw : isWordChar c
    · simp [hw] at hx
      exact List.mem_cons_of_mem _ hx
    · simp [hw] at hx
      exact List.mem_cons_of_mem _ (ih x hx)

theorem wrSkipToWord_subset (l r : List (Nat × Char)) (h : wrSkipToWord l = some r) :
    ∀ x ∈ r, x ∈ l := by
  induction l generalizing r with
  | nil => simp [wrSkipToWord] at h
  | cons hd rest ih =>
    obtain ⟨i, c⟩ := hd
    rw [wrSkipToWord] at h
    by_cases hw : isWordChar c
    · simp [hw] at h
      intro x hx
      exact List.mem_cons_of_mem _ (h ▸ hx)
    · simp [hw] at h
      intro x hx
      exact List.mem_cons_of_mem _ (ih r h x hx)

theorem wlFindStart_isBoundary (s : List Char) (l : List (Nat × Char)) :
    isCharBoundary s (wlFindStart s l) = true ∧ wlFindStart s l ≤ utf8Len s := by
  induction l with
  | nil => exact ⟨isCharBoundary_zero s, Nat.zero_le _⟩
  | cons hd rest ih =>
    obtain ⟨i, c⟩ := hd
    rw [wlFindStart]
    by_cases hw : isWordChar c
    · rw [if_neg (by simp [hw])]
      exact ih
    · rw [if_pos (by simp [hw])]
      exact ⟨next_char_boundary_isBoundary s i, next_char_boundary_le s i⟩

/-- `word_left` always lands on a scalar boundary within the string. -/
theorem word_left_isBoundary (s : List Char) (pos : Nat) :
    isCharBoundary s (word_left s pos) = true ∧ word_left s pos ≤ utf8Len s := by
  rw [word_left]
  split
  · exact ⟨isCharBoundary_zero s, Nat.zero_le _⟩
  · exact wlFindStart_isBoundary s _

theorem wrFindEnd_isBoundary (s : List Char) (l : List (Nat × Char))
    (hl : ∀ i c, (i, c) ∈ l → isCharBoundary s i = true) :
    isCharBoundary s (wrFindEnd s l) = true ∧ wrFindEnd s l ≤ utf8Len s := by
  induction l with
  | nil => exact ⟨isCharBoundary_utf8Len s, le_refl _⟩
  | cons hd rest ih =>
    obtain ⟨i, c⟩ := hd
    rw [wrFindEnd]
    by_cases hw : isWordChar c
    · rw [if_neg (by simp [hw])]
      exact ih (fun j d hj => hl j d (List.mem_cons_of_mem _ hj))
    · have hb := hl i c (List.mem_cons_self _ _)
      rw [if_pos (by simp [hw])]
      exact ⟨hb, isCharBoundary_le s i hb⟩

/-- Every byte index reported by `char_indices` of the suffix starting at a
boundary `pos` is itself a scalar boundary of `s`. -/
theorem charIndices_byteDrop_boundary (s : List Char) (pos : Nat)
    (hb : isCharBoundary s pos = true) :
    ∀ i c, (i, c) ∈ charIndicesFrom pos (byteDrop s pos) →
      isCharBoundary s i = true := by
  intro i c hmem
  obtain ⟨t1, t2, ht, hi⟩ := charIndicesFrom_mem _ _ _ _ hmem
  have hsplit : s = (byteTake s pos ++ t1) ++ (c :: t2) := by
    rw [List.append_assoc, ← ht, byteTake_append_byteDrop]
  have hlen : utf8Len (byteTake s pos ++ t1) = i := by
    rw [utf8Len_append, utf8Len_byteTake s pos hb, hi]
  calc isCharBoundary s i
      = isCharBoundary ((byteTake s pos ++ t1) ++ (c :: t2))
          (utf8Len (byteTake s pos ++ t1)) := by rw [← hsplit, hlen]
    _ = true := isCharBoundary_append_left _ _

/-- `word_right` from a boundary lands on a scalar boundary within the string. -/
theorem word_right_isBoundary (s : List Char) (pos : Nat)
    (hb : isCharBoundary s pos = true) :
    isCharBoundary s (word_right s pos) = true ∧ word_right s pos ≤ utf8Len s := by
  rw [word_right]
  split
  · exact ⟨isCharBoundary_utf8Len s, le_refl _⟩
  · split
    · exact ⟨isCharBoundary_utf8Len s, le_refl _⟩
    · rename_i rest hsk
      exact wrFindEnd_isBoundary s rest
        (fun i c hm => charIndices_byteDrop_boundary s pos hb i c
          (wrSkipToWord_subset _ _ hsk _ hm))

theorem insertAt_boundary (s : List Char) (p : Nat) (t : List Char)
    (hb : isCharBoundary s p = true) :
    isCharBoundary (insertAt s p t) (p + utf8Len t) = true := by
  have h1 : insertAt s p t = (byteTake s p ++ t) ++ byteDrop s p := by
    rw [insertAt, List.append_assoc]
  have h2 : utf8Len (byteTake s p ++ t) = p + utf8Len t := by
    rw [utf8Len_append, utf8Len_byteTake s p hb]
  rw [h1, ← h2]
  exact isCharBoundary_append_left _ _

theorem insertAt_utf8Len (s : List Char) (p : Nat) (t : List Char)
    (hb : isCharBoundary s p = true) :
    utf8Len (insertAt s p t) = utf8Len s + utf8Len t := by
  rw [insertAt, utf8Len_append, utf8Len_append, utf8Len_byteTake s p hb,
    utf8Len_byteDrop s p hb]
  have := isCharBoundary_le s p hb
  omega

theorem insertAt_ne_nil (s : List Char) (p : Nat) (t : List Char) (hs : s ≠ []) :
    insertAt s p t ≠ [] := by
  intro h
  rw [insertAt] at h
  have h1 := List.append_eq_nil.mp h
  have h2 := List.append_eq_nil.mp h1.1
  apply hs
  have := byteTake_append_byteDrop s p
  rw [h2.1, h1.2] at this
  simpa using this.symm

theorem removeRange_boundary (s : List Char) (a b : Nat)
    (ha : isCharBoundary s a = true) :
    isCharBoundary (removeRange s a b) a = true := by
  rw [removeRange]
  have h := isCharBoundary_append_left (byteTake s a) (byteDrop s b)
  rwa [utf8Len_byteTake s a ha] at h

theorem removeRange_cursor_le (s : List Char) (a b : Nat)
    (ha : isCharBoundary s a = true) :
    a ≤ utf8Len (removeRange s a b) := by
  rw [removeRange, utf8Len_append, utf8Len_byteTake s a ha]
  omega

theorem stepN_prev_boundary (buf : List Char) (k pos : Nat)
    (hb : isCharBoundary buf pos = true) (hle : pos ≤ utf8Len buf) :
    isCharBoundary buf (stepN (fun p => prev_char_boundary buf p) k pos) = true
      ∧ stepN (fun p => prev_char_boundary buf p) k pos ≤ utf8Len buf := by
  induction k generalizing pos with
  | zero => exact ⟨hb, hle⟩
  | succ k ih =>
    rw [stepN]
    exact ih (prev_char_boundary buf pos) (prev_char_boundary_isBoundary buf pos)
      (le_trans (prev_char_boundary_le buf pos) hle)

theorem stepN_next_boundary (buf : List Char) (k pos : Nat)
    (hb : isCharBoundary buf pos = true) (hle : pos ≤ utf8Len buf) :
    isCharBoundary buf (stepN (fun p => next_char_boundary buf p) k pos) = true
      ∧ stepN (fun p => next_char_boundary buf p) k pos ≤ utf8Len buf := by
  induction k generalizing pos with
  | zero => exact ⟨hb, hle⟩
  | succ k ih =>
    rw [stepN]
    exact ih (next_char_boundary buf pos) (next_char_boundary_isBoundary buf pos)
      (next_char_boundary_le buf pos)

/-! ## The LiveEditBuffer invariant (claim C6) -/

/-- Invariant of the display-side live buffer: whenever the cursor is live,
the tail entry is a non-empty `TextTyped` buffer and the cursor is a scalar
boundary within it. -/
def RingInv (a : KeystrokeActivity) : Prop :=
  ∀ c, a.cursor = some c →
    ∃ buf, a.events.getLast? = some (.TextTyped buf) ∧ buf ≠ []
      ∧ isCharBoundary buf c = true ∧ c ≤ utf8Len buf

/-- Invariant of the durable-side live buffer: whenever `live_text` is
present it is non-empty and `live_cursor` is a scalar boundary within it. -/
def DurInv (st : DurableState) : Prop :=
  ∀ t, st.live_text = some t →
    t ≠ [] ∧ isCharBoundary t st.live_cursor = true ∧ st.live_cursor ≤ utf8Len t

theorem ringInv_cursor_none (a : KeystrokeActivity) (h : a.cursor = none) :
    RingInv a := by
  intro c hc
  rw [h] at hc
  cases hc

theorem durInv_live_none (st : DurableState) (h : st.live_text = none) :
    DurInv st := by
  intro t ht
  rw [h] at ht
  cases ht

theorem coalesce_or_append_cursor (a : KeystrokeActivity) (e : KeystrokeEvent) :
    (a.coalesce_or_append e).cursor = a.cursor := by
  rcases hl : a.events.getLast? with _ | last <;>
    simp only [KeystrokeActivity.coalesce_or_append, hl]
  · rfl
  · rcases htc : try_coalesce last e with _ | m
    · simp only [htc]
      exact rfl
    · simp only [htc]

theorem seal_and_log_live_none (st : DurableState) (e : KeystrokeEvent) (now : Nat) :
    (seal_and_log st e now).live_text = none := rfl

/-- A freshly created live buffer (the no-live-buffer `TextTyped` path)
satisfies the ring invariant provided the incoming text is non-empty. -/
theorem ringInv_fresh_text (a : KeystrokeActivity) (incoming : List Char)
    (hinc : incoming ≠ []) :
    RingInv { a.append (.TextTyped incoming) with cursor := some (utf8Len incoming) } := by
  intro c hcc
  obtain rfl : utf8Len incoming = c := Option.some.inj hcc
  refine ⟨incoming, ?_, hinc, isCharBoundary_utf8Len incoming, le_refl _⟩
  exact List.getLast?_concat _

/-- Setting the live cursor to a valid boundary of the (unchanged) tail buffer
preserves the ring invariant. -/
theorem ringInv_set_cursor (a : KeystrokeActivity) (buf : List Char) (nc : Nat)
    (hl : a.events.getLast? = some (.TextTyped buf)) (hne : buf ≠ [])
    (hb : isCharBoundary buf nc = true) (hle : nc ≤ utf8Len buf) :
    RingInv { a with cursor := some nc } := by
  intro c hcc
  obtain rfl : nc = c := Option.some.inj hcc
  exact ⟨buf, hl, hne, hb, hle⟩

/-- Preservation of the display-side invariant by `push_event`, for any event
whose `TextTyped` payload (if it has one) is non-empty. -/
theorem push_event_preserves_RingInv (a : KeystrokeActivity) (e : KeystrokeEvent)
    (hok : ∀ s, e = .TextTyped s → s ≠ []) (ha : RingInv a) :
    RingInv (a.push_event e) := by
  cases e with
  | TextTyped incoming =>
    have hinc : incoming ≠ [] := hok incoming rfl
    rcases hc : a.cursor with _ | cursor <;> rcases hl : a.events.getLast? with _ | last
    · simp only [KeystrokeActivity.push_event, hc, hl]
      exact ringInv_fresh_text a incoming hinc
    · cases last <;> simp only [KeystrokeActivity.push_event, hc, hl] <;>
        exact ringInv_fresh_text a incoming hinc
    · simp only [KeystrokeActivity.push_event, hc, hl]
      exact ringInv_fresh_text a incoming hinc
    · cases last
      next buf =>
        obtain ⟨buf0, hbuf0, hne0, hb0, hle0⟩ := ha cursor hc
        rw [hl] at hbuf0
        obtain rfl : buf = buf0 := by injection Option.some.inj hbuf0
        simp only [KeystrokeActivity.push_event, hc, hl]
        intro c hcc
        obtain rfl : cursor + utf8Len incoming = c := Option.some.inj hcc
        refine ⟨insertAt buf cursor incoming, List.getLast?_concat _,
          insertAt_ne_nil buf cursor incoming hne0,
          insertAt_boundary buf cursor incoming hb0, ?_⟩
        rw [insertAt_utf8Len buf cursor incoming hb0]
        omega
      all_goals
        simp only [KeystrokeActivity.push_event, hc, hl]
        exact ringInv_fresh_text a incoming hinc
  | EditControl ec =>
    cases ec with
    | Backspace count =>
      rcases hc : a.cursor with _ | cursor
      · simp only [KeystrokeActivity.push_event, hc]
        apply ringInv_cursor_none
        rw [coalesce_or_append_cursor]
        exact hc
      · by_cases hpos : cursor > 0
        · rcases hl : a.events.getLast? with _ | last
          · obtain ⟨buf0, hbuf0, _, _, _⟩ := ha cursor hc
            rw [hl] at hbuf0
            simp at hbuf0
          · cases last
            next buf =>
              obtain ⟨buf0, hbuf0, hne0, hb0, hle0⟩ := ha cursor hc
              rw [hl] at hbuf0
              obtain rfl : buf = buf0 := by injection Option.some.inj hbuf0
              simp only [KeystrokeActivity.push_event, hc, hl]
              rw [if_pos hpos]
              by_cases hemp :
                  (removeRange buf (prev_char_boundary buf cursor) cursor).isEmpty
              · rw [if_pos hemp]
                exact ringInv_cursor_none _ rfl
              · rw [if_neg hemp]
                intro c hcc
                obtain rfl : prev_char_boundary buf cursor = c := Option.some.inj hcc
                refine ⟨removeRange buf (prev_char_boundary buf cursor) cursor,
                  List.getLast?_concat _,
                  fun hn => hemp (by rw [hn]; rfl),
                  removeRange_boundary buf _ cursor
                    (prev_char_boundary_isBoundary buf cursor),
                  removeRange_cursor_le buf _ cursor
                    (prev_char_boundary_isBoundary buf cursor)⟩
            all_goals
              obtain ⟨buf0, hbuf0, _, _, _⟩ := ha cursor hc
              rw [hl] at hbuf0
              simp at hbuf0
        · simp only [KeystrokeActivity.push_event, hc]
          rw [if_neg hpos]
          exact ha
    | Delete count =>
      rcases hc : a.cursor with _ | cursor
      · simp only [KeystrokeActivity.push_event, hc]
        apply ringInv_cursor_none
        rw [coalesce_or_append_cursor]
        exact hc
      · rcases hl : a.events.getLast? with _ | last
        · obtain ⟨buf0, hbuf0, _, _, _⟩ := ha cursor hc
          rw [hl] at hbuf0
          simp at hbuf0
        · cases last
          next buf =>
            obtain ⟨buf0, hbuf0, hne0, hb0, hle0⟩ := ha cursor hc
            rw [hl] at hbuf0
            obtain rfl : buf = buf0 := by injection Option.some.inj hbuf0
            simp only [KeystrokeActivity.push_event, hc, hl]
            by_cases hlt : cursor < utf8Len buf
            · rw [if_pos hlt]
              by_cases hemp :
                  (removeRange buf cursor (next_char_boundary buf cursor)).isEmpty
              · rw [if_pos hemp]
                exact ringInv_cursor_none _ rfl
              · rw [if_neg hemp]
                intro c hcc
                obtain rfl : cursor = c := Option.some.inj hcc
                refine ⟨removeRange buf cursor (next_char_boundary buf cursor),
                  List.getLast?_concat _,
                  fun hn => hemp (by rw [hn]; rfl),
                  removeRange_boundary buf cursor _ hb0,
                  removeRange_cursor_le buf cursor _ hb0⟩
            · rw [if_neg hlt]
              exact ha
          all_goals
            obtain ⟨buf0, hbuf0, _, _, _⟩ := ha cursor hc
            rw [hl] at hbuf0
            simp at hbuf0
    | Enter =>
      simp only [KeystrokeActivity.push_event]
      exact ringInv_cursor_none _ (coalesce_or_append_cursor _ _)
    | Tab =>
      simp only [KeystrokeActivity.push_event]
      exact ringInv_cursor_none _ (coalesce_or_append_cursor _ _)
    | Insert =>
      simp only [KeystrokeActivity.push_event]
      exact ringInv_cursor_none _ (coalesce_or_append_cursor _ _)
  | Navigation nav =>
    obtain ⟨d, cnt, ws, wc⟩ := nav
    cases d
    case Left =>
      rcases hc : a.cursor with _ | cursor
      · rcases hl : a.events.getLast? with _ | last <;>
          simp only [KeystrokeActivity.push_event, hc, hl] <;>
          refine ringInv_cursor_none _ ?_ <;>
          rw [coalesce_or_append_cursor] <;> exact hc
      · rcases hl : a.events.getLast? with _ | last
        · obtain ⟨buf0, hbuf0, _, _, _⟩ := ha cursor hc
          rw [hl] at hbuf0
          simp at hbuf0
        · cases last
          next buf =>
            obtain ⟨buf0, hbuf0, hne0, hb0, hle0⟩ := ha cursor hc
            rw [hl] at hbuf0
            obtain rfl : buf = buf0 := by injection Option.some.inj hbuf0
            simp only [KeystrokeActivity.push_event, hc, hl]
            rw [if_pos trivial]
            apply ringInv_set_cursor a buf _ hl hne0
            case hb =>
              cases wc
              · simpa using (stepN_prev_boundary buf cnt cursor hb0 hle0).1
              · simpa using (word_left_isBoundary buf cursor).1
            case hle =>
              cases wc
              · simpa using (stepN_prev_boundary buf cnt cursor hb0 hle0).2
              · simpa using (word_left_isBoundary buf cursor).2
          all_goals
            obtain ⟨buf0, hbuf0, _, _, _⟩ := ha cursor hc
            rw [hl] at hbuf0
            simp at hbuf0
    case Right =>
      rcases hc : a.cursor with _ | cursor
      · rcases hl : a.events.getLast? with _ | last <;>
          simp only [KeystrokeActivity.push_event, hc, hl] <;>
          refine ringInv_cursor_none _ ?_ <;>
          rw [coalesce_or_append_cursor] <;> exact hc
      · rcases hl : a.events.getLast? with _ | last
        · obtain ⟨buf0, hbuf0, _, _, _⟩ := ha cursor hc
          rw [hl] at hbuf0
          simp at hbuf0
        · cases last
          next buf =>
            obtain ⟨buf0, hbuf0, hne0, hb0, hle0⟩ := ha cursor hc
            rw [hl] at hbuf0
            obtain rfl : buf = buf0 := by injection Option.some.inj hbuf0
            simp only [KeystrokeActivity.push_event, hc, hl]
            rw [if_neg (by decide)]
            apply ringInv_set_cursor a buf _ hl hne0
            case hb =>
              cases wc
              · simpa using (stepN_next_boundary buf cnt cursor hb0 hle0).1
              · simpa using (word_right_isBoundary buf cursor hb0).1
            case hle =>
              cases wc
              · simpa using (stepN_next_boundary buf cnt cursor hb0 hle0).2
              · simpa using (word_right_isBoundary buf cursor hb0).2
          all_goals
            obtain ⟨buf0, hbuf0, _, _, _⟩ := ha cursor hc
            rw [hl] at hbuf0
            simp at hbuf0
    case Home =>
      rcases hc : a.cursor with _ | cursor
      · simp only [KeystrokeActivity.push_event, hc, Option.isSome_none,
          Bool.false_eq_true, if_false]
        apply ringInv_cursor_none
        rw [coalesce_or_append_cursor]
        exact hc
      · obtain ⟨buf0, hbuf0, hne0, _, _⟩ := ha cursor hc
        simp only [KeystrokeActivity.push_event, hc, Option.isSome_some, if_true]
        exact ringInv_set_cursor a buf0 0 hbuf0 hne0 (isCharBoundary_zero buf0)
          (Nat.zero_le _)
    case End =>
      rcases hc : a.cursor with _ | cursor
      · rcases hl : a.events.getLast? with _ | last <;>
          simp only [KeystrokeActivity.push_event, hc, hl] <;>
          refine ringInv_cursor_none _ ?_ <;>
          rw [coalesce_or_append_cursor] <;> exact hc
      · rcases hl : a.events.getLast? with _ | last
        · obtain ⟨buf0, hbuf0, _, _, _⟩ := ha cursor hc
          rw [hl] at hbuf0
          simp at hbuf0
        · cases last
          next buf =>
            obtain ⟨buf0, hbuf0, hne0, _, _⟩ := ha cursor hc
            rw [hl] at hbuf0
            obtain rfl : buf = buf0 := by injection Option.some.inj hbuf0
            simp only [KeystrokeActivity.push_event, hc, hl]
            exact ringInv_set_cursor a buf _ hl hne0 (isCharBoundary_utf8Len buf)
              (le_refl _)
          all_goals
            obtain ⟨buf0, hbuf0, _, _, _⟩ := ha cursor hc
            rw [hl] at hbuf0
            simp at hbuf0
    case Up =>
      simp only [KeystrokeActivity.push_event]
      exact ringInv_cursor_none _ (coalesce_or_append_cursor _ _)
    case Down =>
      simp only [KeystrokeActivity.push_event]
      exact ringInv_cursor_none _ (coalesce_or_append_cursor _ _)
    case PageUp =>
      simp only [KeystrokeActivity.push_event]
      exact ringInv_cursor_none _ (coalesce_or_append_cursor _ _)
    case PageDown =>
      simp only [KeystrokeActivity.push_event]
      exact ringInv_cursor_none _ (coalesce_or_append_cursor _ _)
  | Shortcut se =>
    simp only [KeystrokeActivity.push_event]
    exact ringInv_cursor_none _ (coalesce_or_append_cursor _ _)
  | Escape =>
    simp only [KeystrokeActivity.push_event]
    exact ringInv_cursor_none _ (coalesce_or_append_cursor _ _)
  | FunctionKey n =>
    simp only [KeystrokeActivity.push_event]
    exact ringInv_cursor_none _ (coalesce_or_append_cursor _ _)
  | SystemKey k =>
    simp only [KeystrokeActivity.push_event]
    exact ringInv_cursor_none _ (coalesce_or_append_cursor _ _)
  | PaneFocused p =>
    simp only [KeystrokeActivity.push_event]
    exact ringInv_cursor_none _ (coalesce_or_append_cursor _ _)

/-- Preservation of the durable-side invariant by `process_for_event_log`,
for any event whose `TextTyped` payload (if it has one) is non-empty. -/
theorem process_preserves_DurInv (st : DurableState) (e : KeystrokeEvent) (now : Nat)
    (hok : ∀ s, e = .TextTyped s → s ≠ []) (hst : DurInv st) :
    DurInv (process_for_event_log st e now) := by
  cases e with
  | TextTyped s =>
    have hs : s ≠ [] := hok s rfl
    rcases hl : st.live_text with _ | text
    · simp only [process_for_event_log, hl]
      intro t ht
      obtain rfl : s = t := Option.some.inj ht
      exact ⟨hs, isCharBoundary_utf8Len s, le_refl _⟩
    · obtain ⟨hne, hb, hle⟩ := hst text hl
      simp only [process_for_event_log, hl]
      intro t ht
      obtain rfl : insertAt text st.live_cursor s = t := Option.some.inj ht
      refine ⟨insertAt_ne_nil _ _ _ hne, insertAt_boundary _ _ _ hb, ?_⟩
      show st.live_cursor + utf8Len s ≤ utf8Len (insertAt text st.live_cursor s)
      rw [insertAt_utf8Len _ _ _ hb]
      omega
  | EditControl ec =>
    cases ec with
    | Backspace count =>
      rcases hl : st.live_text with _ | text
      · simp only [process_for_event_log, hl]
        exact hst
      · obtain ⟨hne, hb, hle⟩ := hst text hl
        simp only [process_for_event_log, hl]
        by_cases hpos : st.live_cursor > 0
        · rw [if_pos hpos]
          by_cases hemp : (removeRange text (prev_char_boundary text st.live_cursor)
              st.live_cursor).isEmpty
          · rw [if_pos hemp]
            exact durInv_live_none _ rfl
          · rw [if_neg hemp]
            intro t ht
            obtain rfl := Option.some.inj ht
            exact ⟨fun hn => hemp (by rw [hn]; rfl),
              removeRange_boundary text _ _
                (prev_char_boundary_isBoundary text st.live_cursor),
              removeRange_cursor_le text _ _
                (prev_char_boundary_isBoundary text st.live_cursor)⟩
        · rw [if_neg hpos]
          exact hst
    | Delete count =>
      rcases hl : st.live_text with _ | text
      · simp only [process_for_event_log, hl]
        exact hst
      · obtain ⟨hne, hb, hle⟩ := hst text hl
        simp only [process_for_event_log, hl]
        by_cases hlt : st.live_cursor < utf8Len text
        · rw [if_pos hlt]
          by_cases hemp : (removeRange text st.live_cursor
              (next_char_boundary text st.live_cursor)).isEmpty
          · rw [if_pos hemp]
            exact durInv_live_none _ rfl
          · rw [if_neg hemp]
            intro t ht
            obtain rfl := Option.some.inj ht
            exact ⟨fun hn => hemp (by rw [hn]; rfl),
              removeRange_boundary text _ _ hb,
              removeRange_cursor_le text _ _ hb⟩
        · rw [if_neg hlt]
          exact hst
    | Enter =>
      simp only [process_for_event_log]
      exact durInv_live_none _ rfl
    | Tab =>
      simp only [process_for_event_log]
      exact durInv_live_none _ rfl
    | Insert =>
      simp only [process_for_event_log]
      exact durInv_live_none _ rfl
  | Navigation nav =>
    obtain ⟨d, cnt, ws, wc⟩ := nav
    cases d
    case Left =>
      rcases hl : st.live_text with _ | text
      · simp only [process_for_event_log, hl]
        exact hst
      · obtain ⟨hne, hb, hle⟩ := hst text hl
        simp only [process_for_event_log, hl]
        intro t ht
        obtain rfl : text = t := Option.some.inj ht
        refine ⟨hne, ?_, ?_⟩
        · cases wc
          · simpa using prev_char_boundary_isBoundary text st.live_cursor
          · simpa using (word_left_isBoundary text st.live_cursor).1
        · cases wc
          · simpa using le_trans (prev_char_boundary_le text st.live_cursor) hle
          · simpa using (word_left_isBoundary text st.live_cursor).2
    case Right =>
      rcases hl : st.live_text with _ | text
      · simp only [process_for_event_log, hl]
        exact hst
      · obtain ⟨hne, hb, hle⟩ := hst text hl
        simp only [process_for_event_log, hl]
        intro t ht
        obtain rfl : text = t := Option.some.inj ht
        refine ⟨hne, ?_, ?_⟩
        · cases wc
          · simpa using next_char_boundary_isBoundary text st.live_cursor
          · simpa using (word_right_isBoundary text st.live_cursor hb).1
        · cases wc
          · simpa using next_char_boundary_le text st.live_cursor
          · simpa using (word_right_isBoundary text st.live_cursor hb).2
    case Home =>
      simp only [process_for_event_log]
      intro t ht
      obtain ⟨hne, _, _⟩ := hst t ht
      exact ⟨hne, isCharBoundary_zero t, Nat.zero_le _⟩
    case End =>
      rcases hl : st.live_text with _ | text
      · simp only [process_for_event_log, hl]
        exact hst
      · obtain ⟨hne, _, _⟩ := hst text hl
        simp only [process_for_event_log, hl]
        intro t ht
        obtain rfl : text = t := Option.some.inj ht
        exact ⟨hne, isCharBoundary_utf8Len text, le_refl _⟩
    case Up =>
      simp only [process_for_event_log]
      exact durInv_live_none _ rfl
    case Down =>
      simp only [process_for_event_log]
      exact durInv_live_none _ rfl
    case PageUp =>
      simp only [process_for_event_log]
      exact durInv_live_none _ rfl
    case PageDown =>
      simp only [process_for_event_log]
      exact durInv_live_none _ rfl
  | Shortcut se =>
    simp only [process_for_event_log]
    exact durInv_live_none _ rfl
  | Escape =>
    simp only [process_for_event_log]
    exact durInv_live_none _ rfl
  | FunctionKey n =>
    simp only [process_for_event_log]
    exact durInv_live_none _ rfl
  | SystemKey k =>
    simp only [process_for_event_log]
    exact durInv_live_none _ rfl
  | PaneFocused p =>
    simp only [process_for_event_log]
    exact durInv_live_none _ rfl

/-- C6 counterexample: the invariant is not preserved by *every* event.
Processing `TextTyped("")` from the (invariant-satisfying) empty state leaves
each consumer with a live buffer whose text is empty: the display ring retains
an empty tail `TextTyped` entry with a live cursor, and the durable side
retains `live_text = Some("")`. -/
theorem claim_C6_counterexample :
    (KeystrokeActivity.push_event KeystrokeActivity.new (.TextTyped [])).cursor = some 0
    ∧ (KeystrokeActivity.push_event KeystrokeActivity.new
        (.TextTyped [])).events.getLast? = some (.TextTyped [])
    ∧ (process_for_event_log ⟨none, 0, EventLog.new⟩ (.TextTyped []) 0).live_text
        = some [] := by
  decide

/-- C6 (amended): for every event whose `TextTyped` payload (if any) is
non-empty — which covers every event the classifier emits — both consumers
preserve the live-buffer invariant: whenever a live buffer exists its text is
non-empty and its cursor lies on a Unicode-scalar boundary with
`0 ≤ cursor ≤ len(text)`; a buffer emptied by Backspace or Delete is
discarded, never retained.  An event `TextTyped("")` violates preservation
(see the counterexample), so the non-empty-payload hypothesis is required. -/
theorem claim_C6_invariant (a : KeystrokeActivity) (st : DurableState)
    (e : KeystrokeEvent) (now : Nat)
    (hok : ∀ s, e = .TextTyped s → s ≠ [])
    (ha : RingInv a) (hst : DurInv st) :
    RingInv (a.push_event e) ∧ DurInv (process_for_event_log st e now) :=
  ⟨push_event_preserves_RingInv a e hok ha,
    process_preserves_DurInv st e now hok hst⟩

/-- Witness for C6 at concrete states and a concrete event. -/
theorem claim_C6_invariant_witness :
    (∀ s, KeystrokeEvent.TextTyped ['h'] = KeystrokeEvent.TextTyped s → s ≠ [])
    ∧ RingInv (KeystrokeActivity.push_event ⟨[.TextTyped ['a','b']], some 1⟩
        (.TextTyped ['h']))
    ∧ DurInv (process_for_event_log ⟨some ['a','b'], 1, EventLog.new⟩
        (.TextTyped ['h']) 4) := by
  have hok : ∀ s, KeystrokeEvent.TextTyped ['h'] = KeystrokeEvent.TextTyped s →
      s ≠ [] := by
    intro s hs
    injection hs with h
    rw [← h]
    decide
  have ha : RingInv ⟨[.TextTyped ['a','b']], some 1⟩ := by
    intro c hc
    obtain rfl : 1 = c := Option.some.inj hc
    exact ⟨['a','b'], rfl, by decide, by decide, by decide⟩
  have hst : DurInv ⟨some ['a','b'], 1, EventLog.new⟩ := by
    intro t ht
    obtain rfl : ['a','b'] = t := Option.some.inj ht
    exact ⟨by decide, by decide, by decide⟩
  have h := claim_C6_invariant ⟨[.TextTyped ['a','b']], some 1⟩
    ⟨some ['a','b'], 1, EventLog.new⟩ (.TextTyped ['h']) 4 hok ha hst
  exact ⟨hok, h.1, h.2⟩

/-! ## Character-index characterization of cursor movement (claim C4) -/

theorem isCharBoundary_take (s : List Char) (i : Nat) :
    isCharBoundary s (utf8Len (s.take i)) = true := by
  have h := isCharBoundary_append_left (s.take i) (s.drop i)
  rwa [List.take_append_drop] at h

theorem isCharBoundary_inside_char (a : List Char) (d : Char) (b : List Char)
    (j : Nat) (h1 : 0 < j) (h2 : j < d.utf8Size) :
    isCharBoundary (a ++ d :: b) (utf8Len a + j) = false := by
  induction a with
  | nil =>
    rw [List.nil_append, utf8Len_nil, Nat.zero_add,
      isCharBoundary_cons_pos d b j h1]
    simp [h2]
  | cons c a' ih =>
    have hc := Char.utf8Size_pos c
    rw [List.cons_append, utf8Len_cons,
      isCharBoundary_cons_pos c _ _ (by omega)]
    have hnlt : ¬ (c.utf8Size + utf8Len a' + j < c.utf8Size) := by omega
    rw [if_neg hnlt]
    have : c.utf8Size + utf8Len a' + j - c.utf8Size = utf8Len a' + j := by omega
    rw [this]
    exact ih

theorem boundaryDown_eq_of (s : List Char) (q : Nat)
    (hq : isCharBoundary s q = true) :
    ∀ p, q ≤ p → (∀ k, q < k → k ≤ p → isCharBoundary s k = false) →
      boundaryDown s p = q := by
  intro p
  induction p with
  | zero =>
    intro hqp _
    have : q = 0 := by omega
    simp [boundaryDown, this]
  | succ p ih =>
    intro hqp hnone
    rw [boundaryDown]
    by_cases hb : isCharBoundary s (p + 1) = true
    · rcases Nat.lt_or_ge q (p + 1) with h | h
      · have := hnone (p + 1) h (le_refl _)
        rw [this] at hb
        cases hb
      · have : q = p + 1 := by omega
        simp [hb, this]
    · simp only [hb, if_false]
      have hqp' : q ≤ p := by
        rcases Nat.lt_or_ge q (p + 1) with h | h
        · omega
        · exfalso
          have : q = p + 1 := by omega
          rw [this] at hq
          exact hb hq
      exact ih hqp' (fun k hk1 hk2 => hnone k hk1 (by omega))

theorem boundaryUp_eq_of (s : List Char) (q : Nat)
    (hq : isCharBoundary s q = true) (hqlen : q ≤ utf8Len s) :
    ∀ p, p ≤ q → (∀ k, p ≤ k → k < q → isCharBoundary s k = false) →
      boundaryUp s p = q := by
  intro p
  induction p using boundaryUp.induct s with
  | case1 p hcond ih =>
    intro hpq hnone
    rw [boundaryUp, dif_pos hcond]
    have hpltq : p < q := by
      rcases Nat.lt_or_ge p q with h | h
      · exact h
      · exfalso
        have : p = q := by omega
        rw [this] at hcond
        exact hcond.2 hq
    exact ih (by omega) (fun k hk1 hk2 => hnone k (by omega) hk2)
  | case2 p hcond =>
    intro hpq hnone
    rw [boundaryUp, dif_neg hcond]
    by_cases hb : isCharBoundary s p = true
    · rcases Nat.lt_or_ge p q with h | h
      · have := hnone p (le_refl p) h
        rw [this] at hb
        cases hb
      · omega
    · exfalso
      have hplen : utf8Len s ≤ p := by
        rcases Classical.not_and_iff_or_not_not.mp hcond with h | h
        · omega
        · exact absurd (by simpa using h) hb
      have : p = q := by omega
      rw [this] at hb
      exact hb hq

theorem next_char_boundary_at_char (a : List Char) (d : Char) (b : List Char) :
    next_char_boundary (a ++ d :: b) (utf8Len a) = utf8Len a + d.utf8Size := by
  have hd := Char.utf8Size_pos d
  have hlen : utf8Len (a ++ d :: b) = utf8Len a + d.utf8Size + utf8Len b := by
    rw [utf8Len_append, utf8Len_cons]
    omega
  rw [next_char_boundary, if_neg (by omega)]
  apply boundaryUp_eq_of
  · have hsplit : a ++ d :: b = (a ++ [d]) ++ b := by simp
    have h2 : utf8Len (a ++ [d]) = utf8Len a + d.utf8Size := by
      rw [utf8Len_append, utf8Len_cons, utf8Len_nil]
      omega
    rw [hsplit, ← h2]
    exact isCharBoundary_append_left _ _
  · omega
  · omega
  · intro k hk1 hk2
    have : k = utf8Len a + (k - utf8Len a) := by omega
    rw [this]
    exact isCharBoundary_inside_char a d b _ (by omega) (by omega)

theorem prev_char_boundary_at_char (a : List Char) (d : Char) (b : List Char) :
    prev_char_boundary (a ++ d :: b) (utf8Len a + d.utf8Size) = utf8Len a := by
  have hd := Char.utf8Size_pos d
  rw [prev_char_boundary, if_neg (by omega)]
  apply boundaryDown_eq_of
  · have hsplit : a ++ d :: b = a ++ (d :: b) := rfl
    exact isCharBoundary_append_left a (d :: b)
  · omega
  · intro k hk1 hk2
    have : k = utf8Len a + (k - utf8Len a) := by omega
    rw [this]
    exact isCharBoundary_inside_char a d b _ (by omega) (by omega)

theorem take_decompose (s : List Char) (i : Nat) (hi : i < s.length) :
    s = s.take i ++ s.get ⟨i, hi⟩ :: s.drop (i + 1)
      ∧ utf8Len (s.take (i + 1)) = utf8Len (s.take i) + (s.get ⟨i, hi⟩).utf8Size := by
  constructor
  · conv_lhs => rw [← List.take_append_drop i s]
    rw [List.drop_eq_getElem_cons hi]
    simp [List.get_eq_getElem]
  · have h1 : s.take (i + 1) = s.take i ++ [s.get ⟨i, hi⟩] := by
      rw [List.take_succ]
      simp [List.getElem?_eq_getElem hi, List.get_eq_getElem]
    rw [h1, utf8Len_append, utf8Len_cons, utf8Len_nil]
    omega

theorem prev_char_boundary_char (s : List Char) (i : Nat) (hi : i ≤ s.length) :
    prev_char_boundary s (utf8Len (s.take i)) = utf8Len (s.take (i - 1)) := by
  cases i with
  | zero => simp [prev_char_boundary, utf8Len_nil]
  | succ i' =>
    have hi' : i' < s.length := by omega
    obtain ⟨hs, hlen⟩ := take_decompose s i' hi'
    rw [hlen]
    have := prev_char_boundary_at_char (s.take i') (s.get ⟨i', hi'⟩) (s.drop (i' + 1))
    rw [← hs] at this
    simpa using this

theorem next_char_boundary_char (s : List Char) (i : Nat) (hi : i ≤ s.length) :
    next_char_boundary s (utf8Len (s.take i))
      = utf8Len (s.take (min (i + 1) s.length)) := by
  rcases Nat.lt_or_ge i s.length with h | h
  · obtain ⟨hs, hlen⟩ := take_decompose s i h
    have hmin : min (i + 1) s.length = i + 1 := by omega
    rw [hmin, hlen]
    have := next_char_boundary_at_char (s.take i) (s.get ⟨i, h⟩) (s.drop (i + 1))
    rw [← hs] at this
    exact this
  · have hie : i = s.length := by omega
    have htake : s.take i = s := by
      rw [hie]; exact List.take_length s
    have hmin : min (i + 1) s.length = s.length := by omega
    rw [htake, hmin, List.take_length, next_char_boundary, if_pos (le_refl _)]

theorem stepN_prev_char (s : List Char) (k i : Nat) (hi : i ≤ s.length) :
    stepN (fun p => prev_char_boundary s p) k (utf8Len (s.take i))
      = utf8Len (s.take (i - k)) := by
  induction k generalizing i with
  | zero => simp [stepN]
  | succ k ih =>
    rw [stepN, prev_char_boundary_char s i hi]
    rw [ih (i - 1) (by omega)]
    have harith : i - 1 - k = i - (k + 1) := by omega
    rw [harith]

theorem stepN_next_char (s : List Char) (k i : Nat) (hi : i ≤ s.length) :
    stepN (fun p => next_char_boundary s p) k (utf8Len (s.take i))
      = utf8Len (s.take (min (i + k) s.length)) := by
  induction k generalizing i with
  | zero =>
    have hmin : min (i + 0) s.length = i := by omega
    rw [stepN, hmin]
  | succ k ih =>
    rw [stepN, next_char_boundary_char s i hi]
    rw [ih (min (i + 1) s.length) (by omega)]
    congr 2
    omega

/-! ## Word-boundary rules (spec section 4.1) versus the source's
`word_left` / `word_right`: `word_left` matches the spec's Ctrl+Left rule,
while `word_right` follows a stop-at-word-end rule that diverges from the
spec's stated Ctrl+Right rule (see `claim_C4_counterexample`). -/

/-- The spec's Ctrl+Left rule, stated directly: scanning left from `pos`,
skip any trailing non-word characters, then skip the contiguous word, and
stop at its start (the remaining reversed prefix is what lies before the word
start; its byte length is the landing offset). -/
def specWordLeft (s : List Char) (pos : Nat) : Nat :=
  utf8Len (((byteTake s pos).reverse.dropWhile (fun c => ! isWordChar c)).dropWhile
    isWordChar)

/-- Closed-form of the source's `word_right` scanning rule: scanning right
from `pos`, skip any leading non-word characters, then skip the contiguous
word, and stop at the word's END (everything from there on remains;
subtracting its byte length from the total gives the landing offset). This
characterizes the implementation (proven in `word_right_spec`); it is NOT
the spec's section 4.1 rule for Ctrl+Right, which continues past the word's
end to the start of the next word — the divergence is exhibited in
`claim_C4_counterexample` against `specWordRight` below. -/
def wordRightEnd (s : List Char) (pos : Nat) : Nat :=
  utf8Len s
    - utf8Len (((byteDrop s pos).dropWhile (fun c => ! isWordChar c)).dropWhile
        isWordChar)

/-- Modelled from the spec: section 4.1's word-boundary rule for Ctrl+Right,
"scanning right, skip to the end of the current word then to the start of
the next word (or buffer end)": from `pos`, skip the contiguous word
characters of the current word, then skip the following non-word characters,
landing at the start of the next word or at the buffer end. -/
def specWordRight (s : List Char) (pos : Nat) : Nat :=
  utf8Len s
    - utf8Len (((byteDrop s pos).dropWhile isWordChar).dropWhile
        (fun c => ! isWordChar c))

theorem charIndicesFrom_append (a b : List Char) (n : Nat) :
    charIndicesFrom n (a ++ b)
      = charIndicesFrom n a ++ charIndicesFrom (n + utf8Len a) b := by
  induction a generalizing n with
  | nil => simp [charIndicesFrom, utf8Len_nil]
  | cons c rest ih =>
    rw [List.cons_append, charIndicesFrom, charIndicesFrom, ih, utf8Len_cons]
    have : n + c.utf8Size + utf8Len rest = n + (c.utf8Size + utf8Len rest) := by omega
    rw [this]
    simp

theorem utf8Len_reverse (l : List Char) : utf8Len l.reverse = utf8Len l := by
  simp [utf8Len, List.sum_reverse]

theorem char_indices_concat (q : List Char) (d : Char) :
    char_indices (q ++ [d]) = char_indices q ++ [(utf8Len q, d)] := by
  rw [char_indices, charIndicesFrom_append, char_indices]
  simp [charIndicesFrom]

theorem charIndicesFrom_eq_nil (n : Nat) (t : List Char) :
    charIndicesFrom n t = [] ↔ t = [] := by
  cases t <;> simp [charIndicesFrom]

/-- `wlFindStart` over the reversed indices of a prefix of `s` computes the
spec's "skip the word leftwards" step. -/
theorem wlFindStart_spec (s : List Char) :
    ∀ pre suf, s = pre ++ suf →
      wlFindStart s (char_indices pre).reverse
        = utf8Len (pre.reverse.dropWhile isWordChar) := by
  intro pre
  induction pre using List.reverseRecOn with
  | nil =>
    intro suf hs
    simp [char_indices, charIndicesFrom, wlFindStart, utf8Len_nil]
  | append_singleton q d ih =>
    intro suf hs
    rw [char_indices_concat, List.reverse_append]
    simp only [List.reverse_singleton, List.singleton_append]
    rw [wlFindStart]
    by_cases hw : isWordChar d
    · rw [if_neg (by simp [hw])]
      have hq := ih (d :: suf) (by rw [hs]; simp)
      rw [hq, List.reverse_append, List.reverse_singleton, List.singleton_append,
        List.dropWhile_cons]
      simp [hw]
    · rw [if_pos (by simp [hw])]
      have hs' : s = q ++ d :: suf := by rw [hs]; simp
      rw [hs', next_char_boundary_at_char q d suf]
      rw [List.reverse_append, List.reverse_singleton, List.singleton_append,
        List.dropWhile_cons]
      simp only [hw, Bool.false_eq_true, if_false]
      rw [utf8Len_cons, utf8Len_reverse]
      omega

/-- The whole `word_left` loop pair computes the spec's Ctrl+Left rule. -/
theorem wlLoops_spec (s : List Char) :
    ∀ pre suf, s = pre ++ suf →
      wlFindStart s (wlSkipToWord (char_indices pre).reverse)
        = utf8Len ((pre.reverse.dropWhile (fun c => ! isWordChar c)).dropWhile
            isWordChar) := by
  intro pre
  induction pre using List.reverseRecOn with
  | nil =>
    intro suf hs
    simp [char_indices, charIndicesFrom, wlSkipToWord, wlFindStart, utf8Len_nil]
  | append_singleton q d ih =>
    intro suf hs
    rw [char_indices_concat, List.reverse_append]
    simp only [List.reverse_singleton, List.singleton_append]
    rw [wlSkipToWord, List.reverse_append, List.reverse_singleton,
      List.singleton_append, List.dropWhile_cons]
    by_cases hw : isWordChar d
    · rw [if_pos hw]
      have hnw : (! isWordChar d) = false := by simp [hw]
      rw [hnw]
      simp only [Bool.false_eq_true, if_false]
      rw [List.dropWhile_cons]
      simp only [hw, if_true]
      exact wlFindStart_spec s q (d :: suf) (by rw [hs]; simp)
    · rw [if_neg hw]
      have hnw : (! isWordChar d) = true := by simp [hw]
      rw [hnw]
      simp only [if_true]
      exact ih (d :: suf) (by rw [hs]; simp)

/-- `word_left` implements the spec's word-boundary rule for Ctrl+Left. -/
theorem word_left_spec (s : List Char) (pos : Nat) :
    word_left s pos = specWordLeft s pos := by
  rw [word_left, specWordLeft]
  by_cases he : (char_indices (byteTake s pos)).isEmpty
  · have hnil : byteTake s pos = [] := by
      rw [List.isEmpty_iff] at he
      exact (charIndicesFrom_eq_nil 0 _).mp he
    rw [if_pos (by rw [List.isEmpty_iff]; exact (charIndicesFrom_eq_nil 0 _).mpr hnil)]
    rw [hnil]
    simp [utf8Len_nil]
  · rw [if_neg he]
    exact wlLoops_spec s (byteTake s pos) (byteDrop s pos)
      (byteTake_append_byteDrop s pos).symm

/-- `wrFindEnd` over indices of a suffix whose byte offsets end at
`utf8Len s` computes the implementation's "skip to the end of the word"
step. -/
theorem wrFindEnd_spec (s : List Char) :
    ∀ t n, n + utf8Len t = utf8Len s →
      wrFindEnd s (charIndicesFrom n t)
        = utf8Len s - utf8Len (t.dropWhile isWordChar) := by
  intro t
  induction t with
  | nil =>
    intro n hn
    simp [charIndicesFrom, wrFindEnd, utf8Len_nil]
  | cons c rest ih =>
    intro n hn
    rw [charIndicesFrom, wrFindEnd, List.dropWhile_cons]
    by_cases hw : isWordChar c
    · rw [if_neg (by simp [hw]), if_pos hw]
      exact ih (n + c.utf8Size) (by rw [utf8Len_cons] at hn; omega)
    · rw [if_pos (by simp [hw])]
      simp only [hw, Bool.false_eq_true, if_false]
      rw [utf8Len_cons] at hn ⊢
      omega

/-- The whole `word_right` loop pair computes the stop-at-word-end rule
(the body of `wordRightEnd`). -/
theorem wrLoops_spec (s : List Char) :
    ∀ t n, n + utf8Len t = utf8Len s →
      (match wrSkipToWord (charIndicesFrom n t) with
        | none => utf8Len s
        | some rest => wrFindEnd s rest)
        = utf8Len s
            - utf8Len ((t.dropWhile (fun c => ! isWordChar c)).dropWhile isWordChar) := by
  intro t
  induction t with
  | nil =>
    intro n hn
    simp [charIndicesFrom, wrSkipToWord, utf8Len_nil]
  | cons c rest ih =>
    intro n hn
    rw [charIndicesFrom, wrSkipToWord, List.dropWhile_cons]
    by_cases hw : isWordChar c
    · rw [if_pos hw]
      have hnw : (! isWordChar c) = false := by simp [hw]
      rw [hnw]
      simp only [Bool.false_eq_true, if_false, List.dropWhile_cons]
      simp only [hw, if_true]
      exact wrFindEnd_spec s rest (n + c.utf8Size)
        (by rw [utf8Len_cons] at hn; omega)
    · rw [if_neg hw]
      have hnw : (! isWordChar c) = true := by simp [hw]
      rw [hnw]
      simp only [if_true]
      exact ih (n + c.utf8Size) (by rw [utf8Len_cons] at hn; omega)

/-- `word_right` from a scalar boundary implements the stop-at-word-end
rule `wordRightEnd` — NOT the spec's Ctrl+Right rule `specWordRight`, which
continues to the start of the next word. -/
theorem word_right_spec (s : List Char) (pos : Nat)
    (hb : isCharBoundary s pos = true) :
    word_right s pos = wordRightEnd s pos := by
  have hn : pos + utf8Len (byteDrop s pos) = utf8Len s := by
    rw [utf8Len_byteDrop s pos hb]
    have := isCharBoundary_le s pos hb
    omega
  rw [word_right, wordRightEnd]
  by_cases he : (charIndicesFrom pos (byteDrop s pos)).isEmpty
  · rw [if_pos he]
    have hnil : byteDrop s pos = [] := by
      rw [List.isEmpty_iff] at he
      exact (charIndicesFrom_eq_nil pos _).mp he
    rw [hnil]
    simp [utf8Len_nil]
  · rw [if_neg he]
    exact wrLoops_spec s (byteDrop s pos) pos hn

/-! ## Claim C4: cursor movement on Navigation Left/Right -/

/-- C4 counterexample: two divergences from the original claim. First, on
the durable path a `Navigation(Left, repeatCount=2)` on the live buffer
"ab" with cursor 2 moves the cursor to 1, not by `repeatCount` scalar
boundaries to 0 — `process_for_event_log` ignores the repeat count and
steps exactly one boundary. Second, with Ctrl held, `Navigation(Right)` on
the live buffer "foo bar" with cursor 0 lands BOTH consumers at byte 3,
the end of the current word, whereas the spec's word-boundary rule "skip to
the end of the current word then to the start of the next word (or buffer
end)" (`specWordRight`) lands at byte 4, the start of "bar". -/
theorem claim_C4_counterexample :
    ((process_for_event_log ⟨some ['a','b'], 2, EventLog.new⟩
        (.Navigation ⟨.Left, 2, false, false⟩) 0).live_cursor = 1
      ∧ (process_for_event_log ⟨some ['a','b'], 2, EventLog.new⟩
          (.Navigation ⟨.Left, 2, false, false⟩) 0).live_cursor ≠ 0)
    ∧ ((KeystrokeActivity.mk [.TextTyped ['f','o','o',' ','b','a','r']]
          (some 0)).push_event (.Navigation ⟨.Right, 1, false, true⟩)).cursor
        = some 3
    ∧ (process_for_event_log
          ⟨some ['f','o','o',' ','b','a','r'], 0, EventLog.new⟩
          (.Navigation ⟨.Right, 1, false, true⟩) 0).live_cursor = 3
    ∧ specWordRight ['f','o','o',' ','b','a','r'] 0 = 4 := by
  decide

/-- C4 (amended): with a live buffer (cursor at scalar index `i` of `buf` in
the ring; at index `j` of `text` on the durable side), `Navigation(Left)` /
`Navigation(Right)` without Ctrl moves the ring cursor by `repeatCount`
Unicode-scalar boundaries clamped at the buffer ends, but moves the durable
cursor by exactly ONE scalar boundary (the repeat count is ignored there);
with Ctrl both consumers move the cursor once by the implementation's word
rules: Ctrl+Left lands at the start of the current-or-previous word,
matching the spec's rule (`specWordLeft`), while Ctrl+Right skips any
leading non-word characters and lands at the END of the current-or-next
word (`wordRightEnd`) — not at the start of the next word as the spec's
rule states; in every case the buffer text is not mutated (and the durable
`EventLog` is untouched). -/
theorem claim_C4_cursor_movement
    (a : KeystrokeActivity) (buf : List Char) (i count : Nat) (ws : Bool)
    (st : DurableState) (text : List Char) (j : Nat) (now : Nat)
    (hc : a.cursor = some (utf8Len (buf.take i)))
    (hl : a.events.getLast? = some (.TextTyped buf))
    (hi : i ≤ buf.length)
    (hst : st.live_text = some text)
    (hj : st.live_cursor = utf8Len (text.take j))
    (hjle : j ≤ text.length) :
    ((a.push_event (.Navigation ⟨.Left, count, ws, false⟩)).cursor
        = some (utf8Len (buf.take (i - count)))
      ∧ (a.push_event (.Navigation ⟨.Left, count, ws, false⟩)).events = a.events)
    ∧ ((a.push_event (.Navigation ⟨.Right, count, ws, false⟩)).cursor
        = some (utf8Len (buf.take (min (i + count) buf.length)))
      ∧ (a.push_event (.Navigation ⟨.Right, count, ws, false⟩)).events = a.events)
    ∧ ((a.push_event (.Navigation ⟨.Left, count, ws, true⟩)).cursor
        = some (specWordLeft buf (utf8Len (buf.take i)))
      ∧ (a.push_event (.Navigation ⟨.Left, count, ws, true⟩)).events = a.events)
    ∧ ((a.push_event (.Navigation ⟨.Right, count, ws, true⟩)).cursor
        = some (wordRightEnd buf (utf8Len (buf.take i)))
      ∧ (a.push_event (.Navigation ⟨.Right, count, ws, true⟩)).events = a.events)
    ∧ ((process_for_event_log st (.Navigation ⟨.Left, count, ws, false⟩) now).live_cursor
        = utf8Len (text.take (j - 1))
      ∧ (process_for_event_log st (.Navigation ⟨.Left, count, ws, false⟩) now).live_text
          = some text
      ∧ (process_for_event_log st (.Navigation ⟨.Left, count, ws, false⟩) now).event_log
          = st.event_log)
    ∧ ((process_for_event_log st (.Navigation ⟨.Right, count, ws, false⟩) now).live_cursor
        = utf8Len (text.take (min (j + 1) text.length))
      ∧ (process_for_event_log st (.Navigation ⟨.Right, count, ws, false⟩) now).live_text
          = some text
      ∧ (process_for_event_log st (.Navigation ⟨.Right, count, ws, false⟩) now).event_log
          = st.event_log)
    ∧ ((process_for_event_log st (.Navigation ⟨.Left, count, ws, true⟩) now).live_cursor
        = specWordLeft text st.live_cursor
      ∧ (process_for_event_log st (.Navigation ⟨.Left, count, ws, true⟩) now).live_text
          = some text)
    ∧ ((process_for_event_log st (.Navigation ⟨.Right, count, ws, true⟩) now).live_cursor
        = wordRightEnd text st.live_cursor
      ∧ (process_for_event_log st (.Navigation ⟨.Right, count, ws, true⟩) now).live_text
          = some text) := by
  refine ⟨⟨?_, ?_⟩, ⟨?_, ?_⟩, ⟨?_, ?_⟩, ⟨?_, ?_⟩, ⟨?_, ?_, ?_⟩, ⟨?_, ?_, ?_⟩,
    ⟨?_, ?_⟩, ⟨?_, ?_⟩⟩
  · simp only [KeystrokeActivity.push_event, hc, hl]
    rw [if_pos trivial, if_neg (by decide)]
    rw [stepN_prev_char buf count i hi]
  · simp only [KeystrokeActivity.push_event, hc, hl]
  · simp only [KeystrokeActivity.push_event, hc, hl]
    rw [if_neg (by decide), if_neg (by decide)]
    rw [stepN_next_char buf count i hi]
  · simp only [KeystrokeActivity.push_event, hc, hl]
  · simp only [KeystrokeActivity.push_event, hc, hl]
    rw [if_pos trivial, if_pos trivial]
    rw [word_left_spec]
  · simp only [KeystrokeActivity.push_event, hc, hl]
  · simp only [KeystrokeActivity.push_event, hc, hl]
    rw [if_neg (by decide), if_pos trivial]
    rw [word_right_spec buf _ (isCharBoundary_take buf i)]
  · simp only [KeystrokeActivity.push_event, hc, hl]
  · simp only [process_for_event_log, hst]
    rw [if_neg (by decide), hj]
    exact prev_char_boundary_char text j hjle
  · simp only [process_for_event_log, hst]
  · simp only [process_for_event_log, hst]
  · simp only [process_for_event_log, hst]
    rw [if_neg (by decide), hj]
    exact next_char_boundary_char text j hjle
  · simp only [process_for_event_log, hst]
  · simp only [process_for_event_log, hst]
  · simp only [process_for_event_log, hst]
    rw [if_pos trivial]
    exact word_left_spec text st.live_cursor
  · simp only [process_for_event_log, hst]
  · simp only [process_for_event_log, hst]
    rw [if_pos trivial]
    exact word_right_spec text st.live_cursor (hj ▸ isCharBoundary_take text j)
  · simp only [process_for_event_log, hst]

/-- Witness for C4 at concrete states: buffer "ab", ring cursor at scalar
index 2, durable cursor at scalar index 2, one `Navigation(Left)`. -/
theorem claim_C4_cursor_movement_witness :
    (KeystrokeActivity.mk [.TextTyped ['a','b']] (some 2)).cursor
        = some (utf8Len ((['a','b'] : List Char).take 2))
    ∧ ((KeystrokeActivity.mk [.TextTyped ['a','b']] (some 2)).push_event
          (.Navigation ⟨.Left, 1, false, false⟩)).cursor
        = some (utf8Len ((['a','b'] : List Char).take (2 - 1)))
    ∧ (process_for_event_log ⟨some ['a','b'], 2, EventLog.new⟩
          (.Navigation ⟨.Left, 1, false, false⟩) 0).live_cursor
        = utf8Len ((['a','b'] : List Char).take (2 - 1)) := by
  have h := claim_C4_cursor_movement
    (KeystrokeActivity.mk [.TextTyped ['a','b']] (some 2)) ['a','b'] 2 1 false
    ⟨some ['a','b'], 2, EventLog.new⟩ ['a','b'] 2 0
    (by decide) rfl (by decide) rfl (by decide) (by decide)
  exact ⟨by decide, h.1.1, h.2.2.2.2.1.1⟩

/-! ## Hand-rolled base64 codec (`zellij-plugin/src/event_log_io.rs`) -/

/-- `ALPHABET`: the 64 base64 digit characters, as byte values
(`A`–`Z`, `a`–`z`, `0`–`9`, `+`, `/`). -/
def b64Alphabet : List Nat :=
  [65, 66, 67, 68, 69, 70, 71, 72, 73, 74, 75, 76, 77, 78, 79, 80, 81, 82, 83,
   84, 85, 86, 87, 88, 89, 90,
   97, 98, 99, 100, 101, 102, 103, 104, 105, 106, 107, 108, 109, 110, 111, 112,
   113, 114, 115, 116, 117, 118, 119, 120, 121, 122,
   48, 49, 50, 51, 52, 53, 54, 55, 56, 57, 43, 47]

/-- `data.chunks(3)`. -/
def chunks3 : List Nat → List (List Nat)
  | [] => []
  | a :: b :: c :: rest => [a, b, c] :: chunks3 rest
  | short => [short]

/-- The 24-bit accumulator `n` built by `n |= (byte as u32) << (16 - i * 8)`
over one chunk. -/
def chunkN (chunk : List Nat) : Nat :=
  chunk.enum.foldl (fun n ic => n ||| (ic.2 <<< (16 - ic.1 * 8))) 0

/-- The `for i in 0..(4 - padding)` emission loop for one chunk. -/
def encodeChunk (chunk : List Nat) : List Nat :=
  (List.range (4 - (3 - chunk.length))).map
    (fun i => b64Alphabet.getD ((chunkN chunk >>> (18 - i * 6)) &&& 63) 0)

/-- The `padding` value left over from the last loop iteration (`0` when the
input is empty, since the loop body never runs). -/
def finalPadding (data : List Nat) : Nat :=
  match (chunks3 data).getLast? with
  | none => 0
  | some chunk => 3 - chunk.length

/-- `base64_encode`: 4 digits per 3-byte chunk, then `'='` padding
(char code 61) for the last partial chunk. -/
def base64_encode (data : List Nat) : List Nat :=
  ((chunks3 data).map encodeChunk).flatten ++ List.replicate (finalPadding data) 61

/-- `DECODE_TABLE`: the 128-entry signed lookup table from the source,
transcribed verbatim (-1 marks characters that are skipped). -/
def b64DecodeTable : List Int :=
  [-1, -1, -1, -1, -1, -1, -1, -1, -1, -1, -1, -1, -1, -1, -1, -1, -1, -1, -1,
   -1, -1, -1, -1, -1, -1, -1, -1, -1, -1, -1, -1, -1, -1, -1, -1, -1, -1, -1,
   -1, -1, -1, -1, -1, 62, -1, -1, -1, 63, 52, 53, 54, 55, 56, 57, 58, 59, 60,
   61, -1, -1, -1, -1, -1, -1, -1, 0, 1, 2, 3, 4, 5, 6, 7, 8, 9, 10, 11, 12,
   13, 14, 15, 16, 17, 18, 19, 20, 21, 22, 23, 24, 25, -1, -1, -1, -1, -1, -1,
   26, 27, 28, 29, 30, 31, 32, 33, 34, 35, 36, 37, 38, 39, 40, 41, 42, 43, 44,
   45, 46, 47, 48, 49, 50, 51, -1, -1, -1, -1, -1]

/-- Table lookup with the `(c as usize) < 128` guard. -/
def b64DecodeVal (c : Nat) : Int :=
  if c < 128 then b64DecodeTable.getD c (-1) else -1

/-- ASCII whitespace, for `str::trim` (the encoder never emits whitespace, so
the ASCII fragment of Rust's Unicode trimming is all that can ever fire on
this codec's own output). -/
def isB64Ws (c : Nat) : Bool :=
  c = 32 || c = 9 || c = 10 || c = 13 || c = 12 || c = 11

/-- `s.trim()`. -/
def b64Trim (s : List Nat) : List Nat :=
  ((s.dropWhile isB64Ws).reverse.dropWhile isB64Ws).reverse

/-- `s.trim_end_matches('=')`. -/
def b64TrimEndEq (s : List Nat) : List Nat :=
  (s.reverse.dropWhile (fun c => c = 61)).reverse

/-- The 6-bit accumulator loop of `base64_decode`; `(buffer >> bits) as u8`
is modeled as `% 256`. -/
def b64DecodeLoop : List Nat → Nat → Nat → List Nat → List Nat
  | [], _, _, acc => acc
  | c :: rest, buffer, bits, acc =>
    let val := b64DecodeVal c
    if val < 0 then b64DecodeLoop rest buffer bits acc
    else
      let buffer' := (buffer <<< 6) ||| val.toNat
      let bits' := bits + 6
      if bits' ≥ 8 then
        b64DecodeLoop rest buffer' (bits' - 8)
          (acc ++ [(buffer' >>> (bits' - 8)) % 256])
      else b64DecodeLoop rest buffer' bits' acc

/-- `base64_decode` (always returns `Some` in the source). -/
def base64_decode (s : List Nat) : Option (List Nat) :=
  some (b64DecodeLoop (b64TrimEndEq (b64Trim s)) 0 0 [])

/-! ## Base64 round-trip lemmas -/

theorem and63_eq_mod (x : Nat) : x &&& 63 = x % 64 := by
  have h := Nat.and_pow_two_sub_one_eq_mod x 6
  norm_num at h
  exact h

theorem and63_lt (x : Nat) : x &&& 63 < 64 := by
  rw [and63_eq_mod]
  omega

theorem lor_shift6 (x v : Nat) (hv : v < 64) : (x <<< 6) ||| v = x * 64 + v := by
  have h1 : x <<< 6 = 2 ^ 6 * x := by
    rw [Nat.shiftLeft_eq]
    ring
  have h2 := Nat.mul_add_lt_is_or (i := 6) (by omega : v < 2 ^ 6) x
  rw [h1, ← h2]
  norm_num
  ring

theorem b64_alph_decode : ∀ v, v < 64 → b64DecodeVal (b64Alphabet.getD v 0) = Int.ofNat v := by
  decide

theorem b64_decode_step_lo (v : Nat) (hv : v < 64) (rest : List Nat)
    (buffer bits : Nat) (acc : List Nat) (hbits : bits + 6 < 8) :
    b64DecodeLoop (b64Alphabet.getD v 0 :: rest) buffer bits acc
      = b64DecodeLoop rest (buffer * 64 + v) (bits + 6) acc := by
  rw [b64DecodeLoop]
  simp only [b64_alph_decode v hv]
  rw [if_neg (by rw [Int.ofNat_eq_natCast]; omega : ¬ (Int.ofNat v < 0))]
  rw [if_neg (by omega)]
  have htn : (Int.ofNat v).toNat = v := rfl
  rw [htn, lor_shift6 buffer v hv]

theorem b64_decode_step_hi (v : Nat) (hv : v < 64) (rest : List Nat)
    (buffer bits : Nat) (acc : List Nat) (hbits : bits + 6 ≥ 8) :
    b64DecodeLoop (b64Alphabet.getD v 0 :: rest) buffer bits acc
      = b64DecodeLoop rest (buffer * 64 + v) (bits + 6 - 8)
          (acc ++ [((buffer * 64 + v) >>> (bits + 6 - 8)) % 256]) := by
  rw [b64DecodeLoop]
  simp only [b64_alph_decode v hv]
  rw [if_neg (by rw [Int.ofNat_eq_natCast]; omega : ¬ (Int.ofNat v < 0))]
  rw [if_pos (by omega)]
  have htn : (Int.ofNat v).toNat = v := rfl
  rw [htn, lor_shift6 buffer v hv]

theorem lor_eq_add_of_lt (x y k : Nat) (hy : y < 2 ^ k) :
    (2 ^ k * x) ||| y = 2 ^ k * x + y :=
  (Nat.mul_add_lt_is_or hy x).symm

theorem chunkN3_eq (a b c : Nat) (hb : b < 256) (hc : c < 256) :
    chunkN [a, b, c] = a * 65536 + b * 256 + c := by
  show ((0 ||| a <<< 16) ||| b <<< 8) ||| c <<< 0 = a * 65536 + b * 256 + c
  rw [Nat.zero_or]
  have e16 : a <<< 16 = 2 ^ 16 * a := by rw [Nat.shiftLeft_eq]; ring
  have e8 : b <<< 8 = b * 256 := by rw [Nat.shiftLeft_eq]
  have e0 : c <<< 0 = c := by rw [Nat.shiftLeft_eq]; norm_num
  rw [e16, e8, e0]
  rw [lor_eq_add_of_lt a (b * 256) 16 (by omega)]
  have h3 : 2 ^ 16 * a + b * 256 = 2 ^ 8 * (a * 256 + b) := by ring
  rw [h3, lor_eq_add_of_lt (a * 256 + b) c 8 (by omega)]
  ring

theorem chunkN2_eq (a b : Nat) (hb : b < 256) :
    chunkN [a, b] = a * 65536 + b * 256 := by
  show (0 ||| a <<< 16) ||| b <<< 8 = a * 65536 + b * 256
  rw [Nat.zero_or]
  have e16 : a <<< 16 = 2 ^ 16 * a := by rw [Nat.shiftLeft_eq]; ring
  have e8 : b <<< 8 = b * 256 := by rw [Nat.shiftLeft_eq]
  rw [e16, e8]
  rw [lor_eq_add_of_lt a (b * 256) 16 (by omega)]
  ring

theorem chunkN1_eq (a : Nat) : chunkN [a] = a * 65536 := by
  show 0 ||| a <<< 16 = a * 65536
  rw [Nat.zero_or, Nat.shiftLeft_eq]

theorem b64_decode_four (v0 v1 v2 v3 : Nat) (h0 : v0 < 64) (h1 : v1 < 64)
    (h2 : v2 < 64) (h3 : v3 < 64) (rest : List Nat) (buffer : Nat) (acc : List Nat) :
    b64DecodeLoop (b64Alphabet.getD v0 0 :: b64Alphabet.getD v1 0 ::
        b64Alphabet.getD v2 0 :: b64Alphabet.getD v3 0 :: rest) buffer 0 acc
      = b64DecodeLoop rest ((((buffer * 64 + v0) * 64 + v1) * 64 + v2) * 64 + v3) 0
          (acc ++ [((buffer * 64 + v0) * 64 + v1) / 16 % 256,
            (((buffer * 64 + v0) * 64 + v1) * 64 + v2) / 4 % 256,
            ((((buffer * 64 + v0) * 64 + v1) * 64 + v2) * 64 + v3) % 256]) := by
  rw [b64_decode_step_lo v0 h0 _ _ _ _ (by omega)]
  rw [b64_decode_step_hi v1 h1 _ _ _ _ (by omega)]
  rw [b64_decode_step_hi v2 h2 _ _ _ _ (by omega)]
  rw [b64_decode_step_hi v3 h3 _ _ _ _ (by omega)]
  norm_num [Nat.shiftRight_eq_div_pow, List.append_assoc]

theorem b64_decode_three (v0 v1 v2 : Nat) (h0 : v0 < 64) (h1 : v1 < 64)
    (h2 : v2 < 64) (buffer : Nat) (acc : List Nat) :
    b64DecodeLoop [b64Alphabet.getD v0 0, b64Alphabet.getD v1 0,
        b64Alphabet.getD v2 0] buffer 0 acc
      = acc ++ [((buffer * 64 + v0) * 64 + v1) / 16 % 256,
          (((buffer * 64 + v0) * 64 + v1) * 64 + v2) / 4 % 256] := by
  rw [b64_decode_step_lo v0 h0 _ _ _ _ (by omega)]
  rw [b64_decode_step_hi v1 h1 _ _ _ _ (by omega)]
  rw [b64_decode_step_hi v2 h2 _ _ _ _ (by omega)]
  rw [b64DecodeLoop]
  norm_num [Nat.shiftRight_eq_div_pow, List.append_assoc]

theorem b64_decode_two (v0 v1 : Nat) (h0 : v0 < 64) (h1 : v1 < 64)
    (buffer : Nat) (acc : List Nat) :
    b64DecodeLoop [b64Alphabet.getD v0 0, b64Alphabet.getD v1 0] buffer 0 acc
      = acc ++ [((buffer * 64 + v0) * 64 + v1) / 16 % 256] := by
  rw [b64_decode_step_lo v0 h0 _ _ _ _ (by omega)]
  rw [b64_decode_step_hi v1 h1 _ _ _ _ (by omega)]
  rw [b64DecodeLoop]
  norm_num [Nat.shiftRight_eq_div_pow]

set_option maxHeartbeats 1600000 in
theorem b64_decode_chunk3 (a b c : Nat) (ha : a < 256) (hb : b < 256) (hc : c < 256)
    (rest : List Nat) (buffer : Nat) (acc : List Nat) :
    b64DecodeLoop (encodeChunk [a, b, c] ++ rest) buffer 0 acc
      = b64DecodeLoop rest (buffer * 16777216 + (a * 65536 + b * 256 + c)) 0
          (acc ++ [a, b, c]) := by
  have hch : encodeChunk [a, b, c]
      = [b64Alphabet.getD ((chunkN [a, b, c] >>> 18) &&& 63) 0,
         b64Alphabet.getD ((chunkN [a, b, c] >>> 12) &&& 63) 0,
         b64Alphabet.getD ((chunkN [a, b, c] >>> 6) &&& 63) 0,
         b64Alphabet.getD ((chunkN [a, b, c] >>> 0) &&& 63) 0] := rfl
  rw [hch]
  simp only [List.cons_append, List.nil_append]
  rw [b64_decode_four _ _ _ _ (and63_lt _) (and63_lt _) (and63_lt _) (and63_lt _)]
  have hdig : ∀ k, (chunkN [a, b, c] >>> k) &&& 63
      = (a * 65536 + b * 256 + c) / 2 ^ k % 64 := fun k => by
    rw [Nat.shiftRight_eq_div_pow, and63_eq_mod, chunkN3_eq a b c hb hc]
  rw [hdig 18, hdig 12, hdig 6, hdig 0]
  set n := a * 65536 + b * 256 + c with hndef
  have eo3 : ((((buffer * 64 + n / 2 ^ 18 % 64) * 64 + n / 2 ^ 12 % 64) * 64
      + n / 2 ^ 6 % 64) * 64 + n / 2 ^ 0 % 64) % 256 = c := by omega
  have eo2 : (((buffer * 64 + n / 2 ^ 18 % 64) * 64 + n / 2 ^ 12 % 64) * 64
      + n / 2 ^ 6 % 64) / 4 % 256 = b := by omega
  have eo1 : ((buffer * 64 + n / 2 ^ 18 % 64) * 64 + n / 2 ^ 12 % 64) / 16 % 256
      = a := by omega
  have eB : (((buffer * 64 + n / 2 ^ 18 % 64) * 64 + n / 2 ^ 12 % 64) * 64
      + n / 2 ^ 6 % 64) * 64 + n / 2 ^ 0 % 64 = buffer * 16777216 + n := by omega
  rw [eo3, eo2, eo1, eB]

set_option maxHeartbeats 1600000 in
theorem b64_decode_chunk2 (a b : Nat) (ha : a < 256) (hb : b < 256)
    (buffer : Nat) (acc : List Nat) :
    b64DecodeLoop (encodeChunk [a, b]) buffer 0 acc = acc ++ [a, b] := by
  have hch : encodeChunk [a, b]
      = [b64Alphabet.getD ((chunkN [a, b] >>> 18) &&& 63) 0,
         b64Alphabet.getD ((chunkN [a, b] >>> 12) &&& 63) 0,
         b64Alphabet.getD ((chunkN [a, b] >>> 6) &&& 63) 0] := rfl
  rw [hch]
  rw [b64_decode_three _ _ _ (and63_lt _) (and63_lt _) (and63_lt _)]
  have hdig : ∀ k, (chunkN [a, b] >>> k) &&& 63
      = (a * 65536 + b * 256) / 2 ^ k % 64 := fun k => by
    rw [Nat.shiftRight_eq_div_pow, and63_eq_mod, chunkN2_eq a b hb]
  rw [hdig 18, hdig 12, hdig 6]
  set n := a * 65536 + b * 256 with hndef
  have eo2 : (((buffer * 64 + n / 2 ^ 18 % 64) * 64 + n / 2 ^ 12 % 64) * 64
      + n / 2 ^ 6 % 64) / 4 % 256 = b := by omega
  have eo1 : ((buffer * 64 + n / 2 ^ 18 % 64) * 64 + n / 2 ^ 12 % 64) / 16 % 256
      = a := by omega
  rw [eo2, eo1]

set_option maxHeartbeats 800000 in
theorem b64_decode_chunk1 (a : Nat) (ha : a < 256) (buffer : Nat) (acc : List Nat) :
    b64DecodeLoop (encodeChunk [a]) buffer 0 acc = acc ++ [a] := by
  have hch : encodeChunk [a]
      = [b64Alphabet.getD ((chunkN [a] >>> 18) &&& 63) 0,
         b64Alphabet.getD ((chunkN [a] >>> 12) &&& 63) 0] := rfl
  rw [hch]
  rw [b64_decode_two _ _ (and63_lt _) (and63_lt _)]
  have hdig : ∀ k, (chunkN [a] >>> k) &&& 63 = a * 65536 / 2 ^ k % 64 := fun k => by
    rw [Nat.shiftRight_eq_div_pow, and63_eq_mod, chunkN1_eq a]
  rw [hdig 18, hdig 12]
  have eo1 : ((buffer * 64 + a * 65536 / 2 ^ 18 % 64) * 64
      + a * 65536 / 2 ^ 12 % 64) / 16 % 256 = a := by omega
  rw [eo1]

theorem b64_loop_chunks (k : Nat) :
    ∀ data : List Nat, data.length ≤ k → (∀ x ∈ data, x < 256) →
      ∀ (buffer : Nat) (acc : List Nat),
        b64DecodeLoop (((chunks3 data).map encodeChunk).flatten) buffer 0 acc
          = acc ++ data := by
  induction k with
  | zero =>
    intro data hlen _ buffer acc
    have hnil : data = [] := by
      cases data with
      | nil => rfl
      | cons x xs => simp at hlen
    subst hnil
    simp [chunks3, b64DecodeLoop]
  | succ k ih =>
    intro data hlen hbytes buffer acc
    match data with
    | [] => simp [chunks3, b64DecodeLoop]
    | [a] =>
      have hch : chunks3 [a] = [[a]] := rfl
      rw [hch]
      simp only [List.map_cons, List.map_nil, List.flatten_cons, List.flatten_nil,
        List.append_nil]
      exact b64_decode_chunk1 a (hbytes a (by simp)) buffer acc
    | [a, b] =>
      have hch : chunks3 [a, b] = [[a, b]] := rfl
      rw [hch]
      simp only [List.map_cons, List.map_nil, List.flatten_cons, List.flatten_nil,
        List.append_nil]
      exact b64_decode_chunk2 a b (hbytes a (by simp)) (hbytes b (by simp)) buffer acc
    | a :: b :: c :: rest =>
      have hch : chunks3 (a :: b :: c :: rest) = [a, b, c] :: chunks3 rest := rfl
      rw [hch]
      simp only [List.map_cons, List.flatten_cons]
      rw [b64_decode_chunk3 a b c (hbytes a (by simp)) (hbytes b (by simp))
        (hbytes c (by simp))]
      rw [ih rest (by simp at hlen; omega)
        (fun x hx => hbytes x (by simp [hx])) _ (acc ++ [a, b, c])]
      simp

theorem dropWhile_eq_self_of_all {α : Type} (p : α → Bool) (l : List α)
    (h : ∀ x ∈ l, p x = false) : l.dropWhile p = l := by
  cases l with
  | nil => rfl
  | cons x xs =>
    rw [List.dropWhile_cons]
    simp [h x (List.mem_cons_self x xs)]

theorem encodeChunk_mem (ch : List Nat) :
    ∀ x ∈ encodeChunk ch, x ∈ b64Alphabet := by
  intro x hx
  rw [encodeChunk] at hx
  obtain ⟨i, _, rfl⟩ := List.mem_map.mp hx
  have hv : (chunkN ch >>> (18 - i * 6)) &&& 63 < 64 := and63_lt _
  have hlen : b64Alphabet.length = 64 := rfl
  rw [List.getD_eq_getElem _ _ (by omega)]
  exact List.getElem_mem _

theorem b64joined_mem (data : List Nat) :
    ∀ x ∈ ((chunks3 data).map encodeChunk).flatten, x ∈ b64Alphabet := by
  intro x hx
  obtain ⟨l, hl, hxl⟩ := List.mem_flatten.mp hx
  obtain ⟨ch, _, rfl⟩ := List.mem_map.mp hl
  exact encodeChunk_mem ch x hxl

theorem b64_alph_not_ws : ∀ x ∈ b64Alphabet, isB64Ws x = false := by decide

theorem b64_alph_ne_61 : ∀ x ∈ b64Alphabet, x ≠ 61 := by decide

theorem b64Trim_encode (data : List Nat) :
    b64Trim (base64_encode data) = base64_encode data := by
  have hall : ∀ x ∈ base64_encode data, isB64Ws x = false := by
    intro x hx
    rcases List.mem_append.mp hx with h | h
    · exact b64_alph_not_ws x (b64joined_mem data x h)
    · have hx61 : x = 61 := List.eq_of_mem_replicate h
      subst hx61
      rfl
  rw [b64Trim, dropWhile_eq_self_of_all _ _ hall,
    dropWhile_eq_self_of_all _ _ (fun x hx => hall x (List.mem_reverse.mp hx)),
    List.reverse_reverse]

theorem dropWhile_replicate_61 (m : Nat) (l : List Nat) :
    List.dropWhile (fun c => decide (c = 61)) (List.replicate m 61 ++ l)
      = List.dropWhile (fun c => decide (c = 61)) l := by
  induction m with
  | zero => rfl
  | succ m ih =>
    rw [List.replicate_succ, List.cons_append, List.dropWhile_cons]
    simp only [decide_eq_true_eq, if_pos rfl]
    exact ih

theorem b64TrimEndEq_encode (data : List Nat) :
    b64TrimEndEq (base64_encode data) = ((chunks3 data).map encodeChunk).flatten := by
  rw [b64TrimEndEq, base64_encode, List.reverse_append, List.reverse_replicate]
  rw [dropWhile_replicate_61]
  rw [dropWhile_eq_self_of_all _ _ (fun x hx => by
    have hmem := b64joined_mem data x (List.mem_reverse.mp hx)
    simpa using b64_alph_ne_61 x hmem)]
  exact List.reverse_reverse _

/-! ## Claim C10: base64 round-trip -/

/-- C10: the hand-rolled base64 codec round-trips: for every byte sequence
(each element < 256), `base64_decode (base64_encode data) = Some data`, so
the serialized log bytes survive the shell-mediated save/load path
unchanged. -/
theorem claim_C10_base64_roundtrip (data : List Nat)
    (hdata : ∀ x ∈ data, x < 256) :
    base64_decode (base64_encode data) = some data := by
  rw [base64_decode, b64Trim_encode, b64TrimEndEq_encode]
  rw [b64_loop_chunks data.length data (le_refl _) hdata 0 []]
  rfl

/-- Witness for C10 on the concrete byte sequence `[72, 105, 255]`. -/
theorem claim_C10_base64_roundtrip_witness :
    (∀ x ∈ ([72, 105, 255] : List Nat), x < 256)
    ∧ base64_decode (base64_encode [72, 105, 255]) = some [72, 105, 255] :=
  ⟨by decide, claim_C10_base64_roundtrip [72, 105, 255] (by decide)⟩

/-! ## Versioned persistence (`EventLog::serialize` / `deserialize`)

The framing protocol — a header record `{version, consumed_count}` followed
by entry records written back-to-back, decoded until a clean end-of-input,
version-checked, with the loaded watermark clamped — is the repository's own
code (`event_log.rs:85-131`).  The per-record byte encoding, however, is
delegated to the external `rmp_serde` crate (MessagePack), whose bytes are
not part of this repository.  Per spec section 6 each record is
"independently self-describing (length-prefixed or self-terminating
per-record encoding)"; the record codec below realizes exactly that contract
and is marked "Modelled from the spec" accordingly. -/

/-- Modelled from the spec: self-terminating variable-length natural-number
record (standing in for a MessagePack integer; spec section 6 requires only
a self-describing per-record encoding). -/
def encNat (n : Nat) : List Nat :=
  if n < 128 then [n] else (n % 128 + 128) :: encNat (n / 128)
termination_by n
decreasing_by simp_wf; omega

/-- Modelled from the spec: decoder for `encNat`. -/
def decNat : List Nat → Option (Nat × List Nat)
  | [] => none
  | b :: rest =>
    if b < 128 then some (b, rest)
    else
      match decNat rest with
      | some (m, r) => some (b - 128 + 128 * m, r)
      | none => none

/-- Modelled from the spec: boolean record. -/
def encBool (b : Bool) : List Nat := [if b then 1 else 0]

/-- Modelled from the spec: decoder for `encBool`. -/
def decBool : List Nat → Option (Bool × List Nat)
  | [] => none
  | 0 :: rest => some (false, rest)
  | 1 :: rest => some (true, rest)
  | _ => none

/-- Modelled from the spec: character record (the scalar value). -/
def encChar (c : Char) : List Nat := encNat c.toNat

/-- Modelled from the spec: decoder for `encChar`. -/
def decChar (data : List Nat) : Option (Char × List Nat) :=
  match decNat data with
  | some (n, rest) => some (Char.ofNat n, rest)
  | none => none

/-- Modelled from the spec: length-prefixed string record. -/
def encString (s : List Char) : List Nat :=
  encNat s.length ++ (s.map encChar).flatten

/-- Modelled from the spec: fixed-count character sequence decoder. -/
def decChars : Nat → List Nat → Option (List Char × List Nat)
  | 0, rest => some ([], rest)
  | k + 1, rest =>
    match decChar rest with
    | some (c, r) =>
      match decChars k r with
      | some (cs, r2) => some (c :: cs, r2)
      | none => none
    | none => none

/-- Modelled from the spec: decoder for `encString`. -/
def decString (data : List Nat) : Option (List Char × List Nat) :=
  match decNat data with
  | some (k, rest) => decChars k rest
  | none => none

/-- Modelled from the spec: optional-field record. -/
def encOption {α : Type} (f : α → List Nat) : Option α → List Nat
  | none => [0]
  | some x => 1 :: f x

/-- Modelled from the spec: decoder for `encOption`. -/
def decOption {α : Type} (f : List Nat → Option (α × List Nat)) :
    List Nat → Option (Option α × List Nat)
  | [] => none
  | 0 :: rest => some (none, rest)
  | 1 :: rest =>
    match f rest with
    | some (x, r) => some (some x, r)
    | none => none
  | _ => none

/-- Modelled from the spec: tagged `ShortcutKey` record. -/
def encShortcutKey : ShortcutKey → List Nat
  | .CharKey c => 0 :: encChar c
  | .Enter => [1]
  | .Tab => [2]
  | .Backspace => [3]
  | .Delete => [4]
  | .Esc => [5]
  | .Insert => [6]
  | .Left => [7]
  | .Right => [8]
  | .Up => [9]
  | .Down => [10]
  | .Home => [11]
  | .End => [12]
  | .PageUp => [13]
  | .PageDown => [14]
  | .F n => 15 :: encNat n

/-- Modelled from the spec: decoder for `encShortcutKey`. -/
def decShortcutKey : List Nat → Option (ShortcutKey × List Nat)
  | [] => none
  | 0 :: rest =>
    match decChar rest with
    | some (c, r) => some (.CharKey c, r)
    | none => none
  | 1 :: rest => some (.Enter, rest)
  | 2 :: rest => some (.Tab, rest)
  | 3 :: rest => some (.Backspace, rest)
  | 4 :: rest => some (.Delete, rest)
  | 5 :: rest => some (.Esc, rest)
  | 6 :: rest => some (.Insert, rest)
  | 7 :: rest => some (.Left, rest)
  | 8 :: rest => some (.Right, rest)
  | 9 :: rest => some (.Up, rest)
  | 10 :: rest => some (.Down, rest)
  | 11 :: rest => some (.Home, rest)
  | 12 :: rest => some (.End, rest)
  | 13 :: rest => some (.PageUp, rest)
  | 14 :: rest => some (.PageDown, rest)
  | 15 :: rest =>
    match decNat rest with
    | some (n, r) => some (.F n, r)
    | none => none
  | _ => none

/-- Modelled from the spec: `ShortcutEvent` record. -/
def encShortcutEvent (e : ShortcutEvent) : List Nat :=
  encShortcutKey e.key ++ encBool e.ctrl ++ encBool e.alt ++ encBool e.shift
    ++ encBool e.super_key

/-- Modelled from the spec: decoder for `encShortcutEvent`. -/
def decShortcutEvent (data : List Nat) : Option (ShortcutEvent × List Nat) :=
  match decShortcutKey data with
  | some (key, r1) =>
    match decBool r1 with
    | some (ctrl, r2) =>
      match decBool r2 with
      | some (alt, r3) =>
        match decBool r3 with
        | some (shift, r4) =>
          match decBool r4 with
          | some (superk, r5) => some (⟨key, ctrl, alt, shift, superk⟩, r5)
          | none => none
        | none => none
      | none => none
    | none => none
  | none => none

/-- Modelled from the spec: tagged `NavDirection` record. -/
def encNavDirection : NavDirection → List Nat
  | .Left => [0]
  | .Right => [1]
  | .Up => [2]
  | .Down => [3]
  | .Home => [4]
  | .End => [5]
  | .PageUp => [6]
  | .PageDown => [7]

/-- Modelled from the spec: decoder for `encNavDirection`. -/
def decNavDirection : List Nat → Option (NavDirection × List Nat)
  | [] => none
  | 0 :: rest => some (.Left, rest)
  | 1 :: rest => some (.Right, rest)
  | 2 :: rest => some (.Up, rest)
  | 3 :: rest => some (.Down, rest)
  | 4 :: rest => some (.Home, rest)
  | 5 :: rest => some (.End, rest)
  | 6 :: rest => some (.PageUp, rest)
  | 7 :: rest => some (.PageDown, rest)
  | _ => none

/-- Modelled from the spec: `NavigationEvent` record. -/
def encNavigationEvent (n : NavigationEvent) : List Nat :=
  encNavDirection n.direction ++ encNat n.count ++ encBool n.with_shift
    ++ encBool n.with_ctrl

/-- Modelled from the spec: decoder for `encNavigationEvent`. -/
def decNavigationEvent (data : List Nat) : Option (NavigationEvent × List Nat) :=
  match decNavDirection data with
  | some (dir, r1) =>
    match decNat r1 with
    | some (count, r2) =>
      match decBool r2 with
      | some (ws, r3) =>
        match decBool r3 with
        | some (wc, r4) => some (⟨dir, count, ws, wc⟩, r4)
        | none => none
      | none => none
    | none => none
  | none => none

/-- Modelled from the spec: tagged `EditControlEvent` record. -/
def encEditControlEvent : EditControlEvent → List Nat
  | .Enter => [0]
  | .Tab => [1]
  | .Backspace count => 2 :: encNat count
  | .Delete count => 3 :: encNat count
  | .Insert => [4]

/-- Modelled from the spec: decoder for `encEditControlEvent`. -/
def decEditControlEvent : List Nat → Option (EditControlEvent × List Nat)
  | [] => none
  | 0 :: rest => some (.Enter, rest)
  | 1 :: rest => some (.Tab, rest)
  | 2 :: rest =>
    match decNat rest with
    | some (count, r) => some (.Backspace count, r)
    | none => none
  | 3 :: rest =>
    match decNat rest with
    | some (count, r) => some (.Delete count, r)
    | none => none
  | 4 :: rest => some (.Insert, rest)
  | _ => none

/-- Modelled from the spec: tagged `SystemKeyEvent` record. -/
def encSystemKeyEvent : SystemKeyEvent → List Nat
  | .CapsLock => [0]
  | .ScrollLock => [1]
  | .NumLock => [2]
  | .PrintScreen => [3]
  | .Pause => [4]
  | .Menu => [5]

/-- Modelled from the spec: decoder for `encSystemKeyEvent`. -/
def decSystemKeyEvent : List Nat → Option (SystemKeyEvent × List Nat)
  | [] => none
  | 0 :: rest => some (.CapsLock, rest)
  | 1 :: rest => some (.ScrollLock, rest)
  | 2 :: rest => some (.NumLock, rest)
  | 3 :: rest => some (.PrintScreen, rest)
  | 4 :: rest => some (.Pause, rest)
  | 5 :: rest => some (.Menu, rest)
  | _ => none

/-- Modelled from the spec: `PaneFocusedEvent` record. -/
def encPaneFocusedEvent (p : PaneFocusedEvent) : List Nat :=
  encOption encString p.tab_name ++ encString p.pane_title
    ++ encOption encString p.command ++ encBool p.is_plugin

/-- Modelled from the spec: decoder for `encPaneFocusedEvent`. -/
def decPaneFocusedEvent (data : List Nat) : Option (PaneFocusedEvent × List Nat) :=
  match decOption decString data with
  | some (tab, r1) =>
    match decString r1 with
    | some (title, r2) =>
      match decOption decString r2 with
      | some (cmd, r3) =>
        match decBool r3 with
        | some (isp, r4) => some (⟨tab, title, cmd, isp⟩, r4)
        | none => none
      | none => none
    | none => none
  | none => none

/-- Modelled from the spec: tagged `KeystrokeEvent` record. -/
def encodeEvent : KeystrokeEvent → List Nat
  | .TextTyped s => 0 :: encString s
  | .Shortcut e => 1 :: encShortcutEvent e
  | .Navigation n => 2 :: encNavigationEvent n
  | .EditControl e => 3 :: encEditControlEvent e
  | .Escape => [4]
  | .FunctionKey n => 5 :: encNat n
  | .SystemKey k => 6 :: encSystemKeyEvent k
  | .PaneFocused p => 7 :: encPaneFocusedEvent p

/-- Modelled from the spec: decoder for `encodeEvent`. -/
def decodeEvent : List Nat → Option (KeystrokeEvent × List Nat)
  | [] => none
  | 0 :: rest =>
    match decString rest with
    | some (s, r) => some (.TextTyped s, r)
    | none => none
  | 1 :: rest =>
    match decShortcutEvent rest with
    | some (e, r) => some (.Shortcut e, r)
    | none => none
  | 2 :: rest =>
    match decNavigationEvent rest with
    | some (n, r) => some (.Navigation n, r)
    | none => none
  | 3 :: rest =>
    match decEditControlEvent rest with
    | some (e, r) => some (.EditControl e, r)
    | none => none
  | 4 :: rest => some (.Escape, rest)
  | 5 :: rest =>
    match decNat rest with
    | some (n, r) => some (.FunctionKey n, r)
    | none => none
  | 6 :: rest =>
    match decSystemKeyEvent rest with
    | some (k, r) => some (.SystemKey k, r)
    | none => none
  | 7 :: rest =>
    match decPaneFocusedEvent rest with
    | some (p, r) => some (.PaneFocused p, r)
    | none => none
  | _ => none

/-- Modelled from the spec: a `LogEntry` record (event then timestamp). -/
def encodeEntry (e : LogEntry) : List Nat :=
  encodeEvent e.event ++ encNat e.timestamp_ms

/-- Modelled from the spec: decoder for `encodeEntry`. -/
def decodeEntry (data : List Nat) : Option (LogEntry × List Nat) :=
  match decodeEvent data with
  | some (ev, r1) =>
    match decNat r1 with
    | some (ts, r2) => some (⟨ev, ts⟩, r2)
    | none => none
  | none => none

/-- `LogHeader` from `event_log.rs`. -/
structure LogHeader where
  version : Nat
  consumed_count : Nat
deriving DecidableEq

/-- Modelled from the spec: the header record (version then watermark). -/
def encodeHeader (h : LogHeader) : List Nat :=
  encNat h.version ++ encNat h.consumed_count

/-- Modelled from the spec: decoder for `encodeHeader`. -/
def decodeHeader (data : List Nat) : Option (LogHeader × List Nat) :=
  match decNat data with
  | some (v, r1) =>
    match decNat r1 with
    | some (cc, r2) => some (⟨v, cc⟩, r2)
    | none => none
  | none => none

/-- `EventLog::serialize`: header record then entry records back-to-back,
with `version = 1` and the current watermark. -/
def EventLog.serialize (log : EventLog) : List Nat :=
  encodeHeader ⟨1, log.consumed_count⟩ ++ (log.events.map encodeEntry).flatten

/-- The `loop { ... }` of `EventLog::deserialize`: read entry records until a
clean end-of-input (the "unexpected EOF" break); any mid-record failure is a
deserialization error.  Fueled by the byte count, which bounds the number of
records (each record is at least one byte). -/
def decodeEntriesLoop : Nat → List Nat → Option (List LogEntry)
  | _, [] => some []
  | 0, _ :: _ => none
  | fuel + 1, data =>
    match decodeEntry data with
    | some (e, rest) =>
      match decodeEntriesLoop fuel rest with
      | some es => some (e :: es)
      | none => none
    | none => none

/-- `EventLog::deserialize`: decode the header, reject versions other than 1,
decode entries to end-of-input, clamp the loaded watermark to the entry
count. -/
def EventLog.deserialize (data : List Nat) : Option EventLog :=
  match decodeHeader data with
  | none => none
  | some (h, rest) =>
    if h.version ≠ 1 then none
    else
      match decodeEntriesLoop rest.length rest with
      | some events => some ⟨events, min h.consumed_count events.length⟩
      | none => none

/-! ## Record-codec round-trip lemmas -/

theorem decNat_enc (n : Nat) (rest : List Nat) :
    decNat (encNat n ++ rest) = some (n, rest) := by
  induction n using encNat.induct with
  | case1 n hlt =>
    rw [encNat, if_pos hlt]
    simp [decNat, hlt]
  | case2 n hlt ih =>
    rw [encNat, if_neg hlt]
    rw [List.cons_append, decNat]
    rw [if_neg (by omega)]
    rw [ih]
    show some (n % 128 + 128 - 128 + 128 * (n / 128), rest) = some (n, rest)
    have harith : n % 128 + 128 - 128 + 128 * (n / 128) = n := by omega
    rw [harith]

theorem decBool_enc (b : Bool) (rest : List Nat) :
    decBool (encBool b ++ rest) = some (b, rest) := by
  cases b <;> rfl

theorem decChar_enc (c : Char) (rest : List Nat) :
    decChar (encChar c ++ rest) = some (c, rest) := by
  rw [decChar, encChar, decNat_enc]
  show some (Char.ofNat c.toNat, rest) = some (c, rest)
  rw [Char.ofNat_toNat]

theorem decChars_enc (s : List Char) (rest : List Nat) :
    decChars s.length ((s.map encChar).flatten ++ rest) = some (s, rest) := by
  induction s with
  | nil => rfl
  | cons c cs ih =>
    simp only [List.map_cons, List.flatten_cons, List.length_cons,
      List.append_assoc]
    rw [decChars, decChar_enc]
    show (match decChars cs.length ((cs.map encChar).flatten ++ rest) with
      | some (cs2, r2) => some (c :: cs2, r2)
      | none => none) = some (c :: cs, rest)
    rw [ih]

theorem decString_enc (s : List Char) (rest : List Nat) :
    decString (encString s ++ rest) = some (s, rest) := by
  rw [decString, encString, List.append_assoc, decNat_enc]
  show decChars s.length ((s.map encChar).flatten ++ rest) = some (s, rest)
  exact decChars_enc s rest

theorem decOption_enc {α : Type} (f : α → List Nat)
    (g : List Nat → Option (α × List Nat))
    (hfg : ∀ x rest, g (f x ++ rest) = some (x, rest)) :
    ∀ (o : Option α) (rest : List Nat),
      decOption g (encOption f o ++ rest) = some (o, rest) := by
  intro o rest
  cases o with
  | none => rfl
  | some x =>
    rw [encOption, List.cons_append, decOption, hfg]

set_option maxHeartbeats 1600000 in
theorem decShortcutKey_enc (k : ShortcutKey) (rest : List Nat) :
    decShortcutKey (encShortcutKey k ++ rest) = some (k, rest) := by
  cases k <;>
    simp [encShortcutKey, decShortcutKey, decChar_enc, decNat_enc]

theorem decShortcutEvent_enc (e : ShortcutEvent) (rest : List Nat) :
    decShortcutEvent (encShortcutEvent e ++ rest) = some (e, rest) := by
  obtain ⟨key, c, al, sh, su⟩ := e
  simp [encShortcutEvent, decShortcutEvent, decShortcutKey_enc, decBool_enc,
    List.append_assoc]

theorem decNavDirection_enc (d : NavDirection) (rest : List Nat) :
    decNavDirection (encNavDirection d ++ rest) = some (d, rest) := by
  cases d <;> rfl

theorem decNavigationEvent_enc (n : NavigationEvent) (rest : List Nat) :
    decNavigationEvent (encNavigationEvent n ++ rest) = some (n, rest) := by
  obtain ⟨d, cnt, ws, wc⟩ := n
  simp [encNavigationEvent, decNavigationEvent, decNavDirection_enc, decNat_enc,
    decBool_enc, List.append_assoc]

theorem decEditControlEvent_enc (e : EditControlEvent) (rest : List Nat) :
    decEditControlEvent (encEditControlEvent e ++ rest) = some (e, rest) := by
  cases e <;>
    simp [encEditControlEvent, decEditControlEvent, decNat_enc]

theorem decSystemKeyEvent_enc (k : SystemKeyEvent) (rest : List Nat) :
    decSystemKeyEvent (encSystemKeyEvent k ++ rest) = some (k, rest) := by
  cases k <;> rfl

theorem decPaneFocusedEvent_enc (p : PaneFocusedEvent) (rest : List Nat) :
    decPaneFocusedEvent (encPaneFocusedEvent p ++ rest) = some (p, rest) := by
  obtain ⟨tab, title, cmd, isp⟩ := p
  simp [encPaneFocusedEvent, decPaneFocusedEvent,
    decOption_enc encString decString decString_enc, decString_enc, decBool_enc,
    List.append_assoc]

theorem decodeEvent_enc (e : KeystrokeEvent) (rest : List Nat) :
    decodeEvent (encodeEvent e ++ rest) = some (e, rest) := by
  cases e <;>
    simp [encodeEvent, decodeEvent, decString_enc, decShortcutEvent_enc,
      decNavigationEvent_enc, decEditControlEvent_enc, decNat_enc,
      decSystemKeyEvent_enc, decPaneFocusedEvent_enc]

theorem decodeEntry_enc (e : LogEntry) (rest : List Nat) :
    decodeEntry (encodeEntry e ++ rest) = some (e, rest) := by
  simp [encodeEntry, decodeEntry, decodeEvent_enc, decNat_enc, List.append_assoc]

theorem decodeHeader_enc (h : LogHeader) (rest : List Nat) :
    decodeHeader (encodeHeader h ++ rest) = some (h, rest) := by
  simp [encodeHeader, decodeHeader, decNat_enc, List.append_assoc]

theorem encodeEvent_ne_nil (e : KeystrokeEvent) : encodeEvent e ≠ [] := by
  cases e <;> simp [encodeEvent]

theorem encodeEntry_ne_nil (e : LogEntry) : encodeEntry e ≠ [] := by
  rw [encodeEntry]
  intro h
  exact encodeEvent_ne_nil e.event (List.append_eq_nil.mp h).1

theorem entries_length_le_flatten (entries : List LogEntry) :
    entries.length ≤ ((entries.map encodeEntry).flatten).length := by
  induction entries with
  | nil => simp
  | cons e es ih =>
    simp only [List.map_cons, List.flatten_cons, List.length_append,
      List.length_cons]
    have h1 : 1 ≤ (encodeEntry e).length := by
      rcases h : encodeEntry e with _ | ⟨x, xs⟩
      · exact absurd h (encodeEntry_ne_nil e)
      · simp
    omega

theorem decodeEntriesLoop_enc (entries : List LogEntry) :
    ∀ fuel, entries.length ≤ fuel →
      decodeEntriesLoop fuel ((entries.map encodeEntry).flatten) = some entries := by
  induction entries with
  | nil =>
    intro fuel _
    cases fuel <;> rfl
  | cons e es ih =>
    intro fuel hfuel
    obtain ⟨k, rfl⟩ : ∃ k, fuel = k + 1 := by
      cases fuel with
      | zero => simp at hfuel
      | succ k => exact ⟨k, rfl⟩
    obtain ⟨x, xs, hx⟩ : ∃ x xs, encodeEntry e = x :: xs := by
      rcases h : encodeEntry e with _ | ⟨x, xs⟩
      · exact absurd h (encodeEntry_ne_nil e)
      · exact ⟨x, xs, rfl⟩
    simp only [List.map_cons, List.flatten_cons, hx, List.cons_append]
    have hde : decodeEntry (x :: (xs ++ ((es.map encodeEntry).flatten)))
        = some (e, (es.map encodeEntry).flatten) := by
      rw [← List.cons_append, ← hx]
      exact decodeEntry_enc e _
    have hih := ih k (by simp at hfuel; omega)
    simp only [decodeEntriesLoop, hde, hih]

/-! ## Claim C2: persistence round-trip -/

/-- C2: `deserialize(serialize(log))` succeeds for every log state (including
the empty log) and yields the same entry sequence with the `consumedCount`
clamped to the entry count; in particular, for logs satisfying the watermark
invariant the result is exactly the original log.  The entry/header record
codec stands in for the external `rmp_serde` encoding (spec section 6); the
framing, version check, EOF-terminated read loop, and clamping are the
repository's own. -/
theorem claim_C2_serialize_roundtrip (log : EventLog) :
    EventLog.deserialize (EventLog.serialize log)
      = some ⟨log.events, min log.consumed_count log.events.length⟩
    ∧ (log.consumed_count ≤ log.events.length →
        EventLog.deserialize (EventLog.serialize log) = some log) := by
  have h1 : EventLog.deserialize (EventLog.serialize log)
      = some ⟨log.events, min log.consumed_count log.events.length⟩ := by
    have hh := decodeHeader_enc ⟨1, log.consumed_count⟩
      ((log.events.map encodeEntry).flatten)
    have hloop := decodeEntriesLoop_enc log.events
      ((log.events.map encodeEntry).flatten).length
      (entries_length_le_flatten log.events)
    simp [EventLog.serialize, EventLog.deserialize, hh]
    rw [show (List.map (List.length ∘ encodeEntry) log.events).sum
        = (List.map encodeEntry log.events).flatten.length from
      by rw [List.length_flatten, List.map_map]]
    rw [hloop]
  refine ⟨h1, fun hinv => ?_⟩
  rw [h1, Nat.min_eq_left hinv]

/-- Witness for C2's invariant conjunct at a concrete one-entry log. -/
theorem claim_C2_serialize_roundtrip_witness :
    (EventLog.mk [⟨.Escape, 5⟩] 1).consumed_count
        ≤ (EventLog.mk [⟨.Escape, 5⟩] 1).events.length
    ∧ EventLog.deserialize (EventLog.serialize (EventLog.mk [⟨.Escape, 5⟩] 1))
        = some (EventLog.mk [⟨.Escape, 5⟩] 1) :=
  ⟨by decide, (claim_C2_serialize_roundtrip (EventLog.mk [⟨.Escape, 5⟩] 1)).2 (by decide)⟩
